import Mathlib

/-!
# Numerical kernels of maple-external-calling

A shallow embedding of the three C kernels of the repository,

* `mat_mult` (src/mat_mult/mat_mult.c),
* `newton`   (src/newton/newton.c),
* `rk4` and `rk4vec` (src/rk4/rk4_out.c),

together with the properties their specification states about them.

Conventions of the embedding.

* A `double *` buffer is a `List` of cells. Reading or writing a cell that is
  not in the buffer is undefined in C; here it makes the call return `none`,
  so a theorem of the form `f ... = some r` also says that every access of the
  call stayed inside its buffer.
* `int` dimensions and indices are natural numbers (the claims are about
  non-negative dimensions; index expressions stay below the buffer lengths).
* A `double` is an element of an arbitrary carrier with the operations the
  code uses. The kernels themselves assume no law of arithmetic; laws are
  assumed by the theorems that need them ("in exact arithmetic"): a semiring
  for the algebra of `mat_mult`, a field for `rk4`, a linearly ordered field
  for `newton`.
* The loop of `newton` is given twice: `newton`, in exact arithmetic, where a
  false loop test means `|f(guess)| <= tolerance`; and `newtonOn`, over a
  record of the four operations the loop uses, which at `ieeeOps` is the loop
  on the values of a `double` (`Dbl`: finite numbers, the infinities and
  NaN), where the test is also false on NaN and a division by zero gives an
  infinity or NaN. The two agree in exact arithmetic (`newton_eq_newtonOn`).
* A C `for (i = 0; i < n; i++)` loop is `forLoop n`; the unbounded `while`
  loop of `newton` takes a bound on the number of updates and returns `none`
  when the bound does not suffice.
-/

namespace MapleExt

/-! ## Buffers and loops -/

/-- The loop `for (i = 0; i < n; i++) body`, over a state `s`; an iteration
that fails (an access outside a buffer) makes the loop fail. -/
def forLoop {σ : Type} (n : Nat) (body : Nat → σ → Option σ) (s : σ) : Option σ :=
  (List.range n).foldlM (fun s i => body i s) s

/-- The assignment `buf[n] = v`: defined only for a cell of the buffer. -/
def store {α : Type} (buf : List α) (n : Nat) (v : α) : Option (List α) :=
  if n < buf.length then some (buf.set n v) else none

/-- A block returned by `malloc ( m * sizeof ( double ) )`: `m` cells whose
contents are indeterminate; `junk` says what they happen to hold. -/
def malloc {α : Type} (junk : Nat → α) (m : Nat) : List α :=
  (List.range m).map junk

/-! ## mat_mult.c -/

/-- The function `mat_mult` of mat_mult.c. The buffers `A` and `B` are only
read; the result is the new contents of `C`. -/
def mat_mult {α : Type} [Zero α] [Add α] [Mul α]
    (A B C : List α) (I J K : Nat) : Option (List α) :=
  forLoop I (fun i C =>
    forLoop K (fun k C => do
      let t ← forLoop J (fun j t => do
        let a ← A[i * J + j]?
        let b ← B[j * K + k]?
        pure (t + a * b)) (0 : α)
      store C (i * K + k) t) C) C

/-! ## newton.c -/

/-- The function `newton` of newton.c in exact arithmetic (a linearly ordered
field; for the loop on `double` values see `newtonOn` at `ieeeOps`). The
`while` loop performs at most `fuel` updates of `guess`; `none` means that
the loop test still holds after `fuel` updates. -/
def newton {α : Type} [LinearOrderedField α]
    (fuel : Nat) (f fprime : α → α) (guess tolerance : α) : Option α :=
  if |f guess| > tolerance then
    match fuel with
    | 0 => none
    | n + 1 => newton n f fprime (guess - f guess / fprime guess) tolerance
  else some guess

/-! ## rk4_out.c -/

/-- The body of `rk4` of rk4_out.c, with the calls of the derivative `f` made
in a monad `M`, in program order. -/
def rk4M {α : Type} [Add α] [Mul α] [Div α] [OfNat α 2] [OfNat α 6]
    {M : Type → Type} [Monad M] (t0 u0 dt : α) (f : α → α → M α) : M α := do
  let f0 ← f t0 u0
  let t1 := t0 + dt / 2
  let u1 := u0 + dt * f0 / 2
  let f1 ← f t1 u1
  let t2 := t0 + dt / 2
  let u2 := u0 + dt * f1 / 2
  let f2 ← f t2 u2
  let t3 := t0 + dt
  let u3 := u0 + dt * f2
  let f3 ← f t3 u3
  let u := u0 + dt * (f0 + 2 * f1 + 2 * f2 + f3) / 6
  return u

/-- The function `rk4` of rk4_out.c, for a derivative without side effects. -/
def rk4 {α : Type} [Add α] [Mul α] [Div α] [OfNat α 2] [OfNat α 6]
    (t0 u0 dt : α) (f : α → α → α) : α :=
  Id.run (rk4M t0 u0 dt (fun t u => pure (f t u)))

/-- The derivative `f`, instrumented: each call appends the point `(t, u)` it
is sampled at to a log. -/
def logged {α : Type} (f : α → α → α) (t u : α) : StateM (List (α × α)) α := do
  modify (fun log => log ++ [(t, u)])
  return f t u

/-- The function `rk4vec` of rk4_out.c. The callback `f ( t, m, u, uout )`
receives two buffers it may write; it is given as the function from their
contents before the call to their contents `(u, uout)` after it. The seven
scratch blocks are allocated in program order (block `n` initially holds
`junk n`). The result is the contents of the caller's buffers `(u0, out)`
after the call; the two buffers are distinct. -/
def rk4vec {α : Type} [Add α] [Mul α] [Div α] [OfNat α 2] [OfNat α 6]
    (junk : Nat → Nat → α) (t0 : α) (m : Nat) (u0 : List α) (dt : α)
    (f : α → Nat → List α → List α → List α × List α) (out : List α) :
    Option (List α × List α) := do
  let u0out := malloc (junk 0) m
  let (u0, u0out) := f t0 m u0 u0out
  let t1 := t0 + dt / 2
  let u1 := malloc (junk 1) m
  let u1out := malloc (junk 2) m
  let u1 ← forLoop m (fun i u1 => do
    let a ← u0[i]?
    let b ← u0out[i]?
    store u1 i (a + dt * b / 2)) u1
  let (_, u1out) := f t1 m u1 u1out
  let t2 := t0 + dt / 2
  let u2 := malloc (junk 3) m
  let u2out := malloc (junk 4) m
  let u2 ← forLoop m (fun i u2 => do
    let a ← u0[i]?
    let b ← u1out[i]?
    store u2 i (a + dt * b / 2)) u2
  let (_, u2out) := f t2 m u2 u2out
  let t3 := t0 + dt
  let u3 := malloc (junk 5) m
  let u3out := malloc (junk 6) m
  let u3 ← forLoop m (fun i u3 => do
    let a ← u0[i]?
    let b ← u2out[i]?
    store u3 i (a + dt * b)) u3
  let (_, u3out) := f t3 m u3 u3out
  let out ← forLoop m (fun i out => do
    let a ← u0[i]?
    let b0 ← u0out[i]?
    let b1 ← u1out[i]?
    let b2 ← u2out[i]?
    let b3 ← u3out[i]?
    store out i (a + dt * (b0 + 2 * b1 + 2 * b2 + b3) / 6)) out
  return (u0, out)

/-! ## Vocabulary of the specification -/

/-- The cell `buf[n]` of a buffer, as a value (`0` outside the buffer). -/
def cell {α : Type} [Zero α] (buf : List α) (n : Nat) : α := buf.getD n 0

/-- Entry `(i, k)` of the product of the row-major matrices `A` (with `J`
columns) and `B` (with `K` columns): the sum of `A[i*J+j] * B[j*K+k]` over
`j < J`, taken in increasing `j` and starting from `0`. -/
def dotRowCol {α : Type} [Zero α] [Add α] [Mul α]
    (A B : List α) (J K i k : Nat) : α :=
  (List.range J).foldl (fun t j => t + cell A (i * J + j) * cell B (j * K + k)) 0

/-- The row-major `n`-by-`n` identity matrix. -/
def identity {α : Type} [Zero α] [One α] (n : Nat) : List α :=
  (List.range (n * n)).map (fun p => if p / n = p % n then 1 else 0)

/-- Entry-wise sum of two buffers. -/
def addEntries {α : Type} [Add α] (X Y : List α) : List α :=
  List.zipWith (fun x y => x + y) X Y

/-- The buffer `C` with cells `base, ..., base + n - 1` overwritten by
`v 0, ..., v (n - 1)`, in this order. -/
def fillRow {α : Type} (v : Nat → α) (base n : Nat) (C : List α) : List α :=
  (List.range n).foldl (fun C k => C.set (base + k) (v k)) C

/-- The buffer `C` with rows `0, ..., n - 1` of width `K` overwritten by the
entries `v i k`, row after row. -/
def fillRows {α : Type} (v : Nat → Nat → α) (K n : Nat) (C : List α) : List α :=
  (List.range n).foldl (fun C i => fillRow (v i) (i * K) K C) C

/-- The intermediate state `u0 + dt * k / 2` of a half step, formed entry by
entry over the first `m` cells. -/
def halfStep {α : Type} [Zero α] [Add α] [Mul α] [Div α] [OfNat α 2]
    (u0 k : List α) (dt : α) (m : Nat) : List α :=
  (List.range m).map (fun i => cell u0 i + dt * cell k i / 2)

/-- The intermediate state `u0 + dt * k` of a full step, formed entry by entry
over the first `m` cells. -/
def fullStep {α : Type} [Zero α] [Add α] [Mul α]
    (u0 k : List α) (dt : α) (m : Nat) : List α :=
  (List.range m).map (fun i => cell u0 i + dt * cell k i)

/-- The Newton iterates of the specification: `x_0 = guess` and
`x_(n+1) = x_n - f(x_n) / fprime(x_n)`. -/
def newtonGuess {α : Type} [Sub α] [Div α] (f fprime : α → α) (guess : α) : Nat → α
  | 0 => guess
  | n + 1 => newtonGuess f fprime guess n -
      f (newtonGuess f fprime guess n) / fprime (newtonGuess f fprime guess n)

/-- The harmonic oscillator `du/dt = [u[1], -u[0]]` of the specification, as a
callback of `rk4vec`: `uout[0] = u[1]; uout[1] = -u[0];`. -/
def oscillator {α : Type} [Zero α] [Neg α] (_t : α) (_m : Nat) (u uout : List α) :
    List α × List α :=
  (u, (uout.set 0 (cell u 1)).set 1 (-cell u 0))

/-- The vector derivative of the harmonic oscillator. -/
def oscillatorField {α : Type} [Zero α] [Neg α] (_t : α) (u : List α) : List α :=
  [cell u 1, -cell u 0]

/-- The callback `f` computes the vector derivative `G`: called on an output
buffer of `m` cells it fills it with the `m` entries of `G t u`, and it
writes nothing else. -/
def Computes {α : Type} (f : α → Nat → List α → List α → List α × List α)
    (G : α → List α → List α) (m : Nat) : Prop :=
  ∀ t u b, b.length = m → f t m u b = (u, G t u) ∧ (G t u).length = m

/-- The callback `f` writes only into its output buffer, which keeps its `m`
cells (a C function cannot resize the block it is handed). -/
def WritesOutput {α : Type} (f : α → Nat → List α → List α → List α × List α)
    (m : Nat) : Prop :=
  ∀ t u b, b.length = m → (f t m u b).1 = u ∧ (f t m u b).2.length = m

/-- The scalar derivative `g` as a callback of `rk4vec` for `m = 1`:
`uout[0] = g ( t, u[0] );`. -/
def scalarCallback {α : Type} [Zero α] (g : α → α → α) (t : α) (_m : Nat)
    (u uout : List α) : List α × List α :=
  (u, uout.set 0 (g t (cell u 0)))

/-- The three buffers a call of `mat_mult` is handed. -/
structure MatBuffers (α : Type) where
  /-- The contents of the buffer `A`. -/
  A : List α
  /-- The contents of the buffer `B`. -/
  B : List α
  /-- The contents of the buffer `C`. -/
  C : List α

/-- The function `mat_mult` of mat_mult.c as a transformer of the three
buffers it is handed: each cell is read from the current contents of `A` and
`B`, and the only assignment, `C[i*K+k] = t`, replaces the contents of `C`. -/
def mat_mult_state {α : Type} [Zero α] [Add α] [Mul α]
    (s : MatBuffers α) (I J K : Nat) : Option (MatBuffers α) :=
  forLoop I (fun i s =>
    forLoop K (fun k s => do
      let t ← forLoop J (fun j t => do
        let a ← s.A[i * J + j]?
        let b ← s.B[j * K + k]?
        pure (t + a * b)) (0 : α)
      let C ← store s.C (i * K + k) t
      pure { s with C := C }) s) s

/-! ## The values of a `double` -/

/-- The values of a C `double`, as far as `newton` can tell them apart: a
finite number, the two infinities, and NaN. Finite numbers are exact
rationals (rounding and overflow are not represented) and a zero is the
positive zero. -/
inductive Dbl where
  /-- A finite number. -/
  | fin (q : ℚ)
  /-- The value `+inf`. -/
  | pinf
  /-- The value `-inf`. -/
  | ninf
  /-- The value NaN. -/
  | nan

/-- Unary minus on `double`. -/
def Dbl.neg : Dbl → Dbl
  | .fin q => .fin (-q)
  | .pinf => .ninf
  | .ninf => .pinf
  | .nan => .nan

/-- The sum `a + b` of two `double`s: `inf + (-inf)` is NaN, and NaN
propagates. -/
def Dbl.add : Dbl → Dbl → Dbl
  | .fin a, .fin b => .fin (a + b)
  | .fin _, .pinf => .pinf
  | .fin _, .ninf => .ninf
  | .fin _, .nan => .nan
  | .pinf, .fin _ => .pinf
  | .pinf, .pinf => .pinf
  | .pinf, .ninf => .nan
  | .pinf, .nan => .nan
  | .ninf, .fin _ => .ninf
  | .ninf, .pinf => .nan
  | .ninf, .ninf => .ninf
  | .ninf, .nan => .nan
  | .nan, _ => .nan

/-- The difference `a - b` of two `double`s. -/
def Dbl.sub (a b : Dbl) : Dbl := Dbl.add a (Dbl.neg b)

/-- The infinity with the sign of the rational `q`, NaN when `q = 0`. -/
def Dbl.signedInf (q : ℚ) : Dbl :=
  if 0 < q then .pinf else if q < 0 then .ninf else .nan

/-- The product `a * b` of two `double`s: `0 * inf` is NaN. -/
def Dbl.mul : Dbl → Dbl → Dbl
  | .fin a, .fin b => .fin (a * b)
  | .fin a, .pinf => Dbl.signedInf a
  | .fin a, .ninf => Dbl.signedInf (-a)
  | .fin _, .nan => .nan
  | .pinf, .fin b => Dbl.signedInf b
  | .pinf, .pinf => .pinf
  | .pinf, .ninf => .ninf
  | .pinf, .nan => .nan
  | .ninf, .fin b => Dbl.signedInf (-b)
  | .ninf, .pinf => .ninf
  | .ninf, .ninf => .pinf
  | .ninf, .nan => .nan
  | .nan, _ => .nan

/-- The quotient `a / b` of two `double`s: a non-zero number over zero is an
infinity, `0 / 0` and `inf / inf` are NaN, a finite number over an infinity
is zero. -/
def Dbl.div : Dbl → Dbl → Dbl
  | .fin a, .fin b => if b = 0 then Dbl.signedInf a else .fin (a / b)
  | .fin _, .pinf => .fin 0
  | .fin _, .ninf => .fin 0
  | .fin _, .nan => .nan
  | .pinf, .fin b => if b < 0 then .ninf else .pinf
  | .pinf, .pinf => .nan
  | .pinf, .ninf => .nan
  | .pinf, .nan => .nan
  | .ninf, .fin b => if b < 0 then .pinf else .ninf
  | .ninf, .pinf => .nan
  | .ninf, .ninf => .nan
  | .ninf, .nan => .nan
  | .nan, _ => .nan

/-- The function `fabs` of math.h. -/
def Dbl.fabs : Dbl → Dbl
  | .fin q => .fin |q|
  | .pinf => .pinf
  | .ninf => .pinf
  | .nan => .nan

/-- The comparison `a > b` of C: false as soon as one side is NaN. -/
def Dbl.gt : Dbl → Dbl → Bool
  | .fin a, .fin b => decide (b < a)
  | .fin _, .pinf => false
  | .fin _, .ninf => true
  | .fin _, .nan => false
  | .pinf, .fin _ => true
  | .pinf, .pinf => false
  | .pinf, .ninf => true
  | .pinf, .nan => false
  | .ninf, _ => false
  | .nan, _ => false

/-- The comparison `a <= b` of C: false as soon as one side is NaN. -/
def Dbl.le : Dbl → Dbl → Bool
  | .fin a, .fin b => decide (a ≤ b)
  | .fin _, .pinf => true
  | .fin _, .ninf => false
  | .fin _, .nan => false
  | .pinf, .fin _ => false
  | .pinf, .pinf => true
  | .pinf, .ninf => false
  | .pinf, .nan => false
  | .ninf, .fin _ => true
  | .ninf, .pinf => true
  | .ninf, .ninf => true
  | .ninf, .nan => false
  | .nan, _ => false

/-- The operations on its numbers that `newton` uses: `-`, `/`, `fabs` and
the comparison `>`. -/
structure NewtonOps (D : Type) where
  /-- The subtraction `a - b`. -/
  sub : D → D → D
  /-- The division `a / b`. -/
  div : D → D → D
  /-- The absolute value `fabs ( a )`. -/
  fabs : D → D
  /-- The comparison `a > b`. -/
  gt : D → D → Bool

/-- The operations of `double` arithmetic. -/
def ieeeOps : NewtonOps Dbl := ⟨Dbl.sub, Dbl.div, Dbl.fabs, Dbl.gt⟩

/-- The operations of exact arithmetic, in a linearly ordered field. -/
def exactOps {α : Type} [LinearOrderedField α] : NewtonOps α :=
  ⟨fun a b => a - b, fun a b => a / b, fun a => |a|, fun a b => decide (b < a)⟩

/-- The function `newton` of newton.c over the operations `ops`: the loop
`while (fabs(f(guess)) > tolerance) guess = guess - f(guess) / fprime(guess);`
with at most `fuel` updates (`none`: the test still holds after `fuel`
updates), then `return guess;`. -/
def newtonOn {D : Type} (ops : NewtonOps D)
    (fuel : Nat) (f fprime : D → D) (guess tolerance : D) : Option D :=
  if ops.gt (ops.fabs (f guess)) tolerance = true then
    match fuel with
    | 0 => none
    | n + 1 =>
      newtonOn ops n f fprime (ops.sub guess (ops.div (f guess) (fprime guess))) tolerance
  else some guess

/-- The Newton iterates over the operations `ops`: `x_0 = guess` and
`x_(n+1) = x_n - f(x_n) / fprime(x_n)`. -/
def iterateOn {D : Type} (ops : NewtonOps D) (f fprime : D → D) (guess : D) : Nat → D
  | 0 => guess
  | n + 1 => ops.sub (iterateOn ops f fprime guess n)
      (ops.div (f (iterateOn ops f fprime guess n)) (fprime (iterateOn ops f fprime guess n)))

/-- The function `x * x + 1` on `double`s. -/
def squarePlusOne (x : Dbl) : Dbl := Dbl.add (Dbl.mul x x) (.fin 1)

/-- The function `2 * x` on `double`s. -/
def twice (x : Dbl) : Dbl := Dbl.mul (.fin 2) x

/-- The function `3 * x - 6` on `double`s. -/
def threeXMinusSix (x : Dbl) : Dbl := Dbl.sub (Dbl.mul (.fin 3) x) (.fin 6)

/-- The constant function `3` on `double`s. -/
def constThree (_x : Dbl) : Dbl := .fin 3

/-! ## Loops -/

theorem forLoop_succ {σ : Type} (n : Nat) (body : Nat → σ → Option σ) (s : σ) :
    forLoop (n + 1) body s = (forLoop n body s).bind (body n) := by
  simp [forLoop, List.range_succ, List.foldlM_append]

/-- A loop whose body succeeds on every state satisfying an invariant runs to
completion, and its result is the pure fold of the effect of its body. -/
theorem forLoop_eq_foldl {σ : Type} (P : σ → Prop) (g : Nat → σ → σ)
    (body : Nat → σ → Option σ) (n : Nat) (s : σ) (h0 : P s)
    (hstep : ∀ i, i < n → ∀ s, P s → body i s = some (g i s) ∧ P (g i s)) :
    forLoop n body s = some ((List.range n).foldl (fun s i => g i s) s) ∧
      P ((List.range n).foldl (fun s i => g i s) s) := by
  induction n with
  | zero => exact ⟨rfl, h0⟩
  | succ n ih =>
    have ih1 := ih (fun i hi => hstep i (Nat.lt_succ_of_lt hi))
    have hs := hstep n (Nat.lt_succ_self n) _ ih1.2
    rw [forLoop_succ, ih1.1, List.range_succ, List.foldl_append]
    exact ⟨by simpa using hs.1, by simpa using hs.2⟩

/-- An invariant of the body of a loop holds of the result of the loop,
whenever the loop runs to completion. -/
theorem forLoop_invariant {σ : Type} (P : σ → Prop) (body : Nat → σ → Option σ)
    (n : Nat) (s r : σ) (h0 : P s)
    (hstep : ∀ i, i < n → ∀ s r, P s → body i s = some r → P r)
    (h : forLoop n body s = some r) : P r := by
  induction n generalizing r with
  | zero =>
    have : s = r := by simpa [forLoop] using h
    exact this ▸ h0
  | succ n ih =>
    rw [forLoop_succ] at h
    cases hn : forLoop n body s with
    | none => rw [hn] at h; cases h
    | some x =>
      rw [hn] at h
      exact hstep n (Nat.lt_succ_self n) x r
        (ih x (fun i hi => hstep i (Nat.lt_succ_of_lt hi)) hn) h

/-! ## Cells of a buffer -/

theorem cell_of_get {α : Type} [Zero α] (buf : List α) (n : Nat) (a : α)
    (h : buf[n]? = some a) : cell buf n = a := by
  simp [cell, List.getD, h]

theorem get_cell {α : Type} [Zero α] (buf : List α) (n : Nat) (h : n < buf.length) :
    buf[n]? = some (cell buf n) := by
  simp [cell, List.getD, List.getElem?_eq_getElem h]

theorem fillRow_succ {α : Type} (v : Nat → α) (base n : Nat) (C : List α) :
    fillRow v base (n + 1) C = (fillRow v base n C).set (base + n) (v n) := by
  simp [fillRow, List.range_succ, List.foldl_append]

theorem fillRow_length {α : Type} (v : Nat → α) (base n : Nat) (C : List α) :
    (fillRow v base n C).length = C.length := by
  induction n with
  | zero => rfl
  | succ n ih => rw [fillRow_succ, List.length_set, ih]

theorem fillRow_get_in {α : Type} (v : Nat → α) (base n : Nat) (C : List α) (k : Nat)
    (hk : k < n) (hlen : base + k < C.length) :
    (fillRow v base n C)[base + k]? = some (v k) := by
  induction n with
  | zero => omega
  | succ n ih =>
    rw [fillRow_succ, List.getElem?_set]
    by_cases h : k = n
    · subst h; simp [fillRow_length, hlen]
    · have : base + n ≠ base + k := by omega
      rw [if_neg this]; exact ih (by omega)

theorem fillRow_get_out {α : Type} (v : Nat → α) (base n : Nat) (C : List α) (p : Nat)
    (hp : p < base ∨ base + n ≤ p) : (fillRow v base n C)[p]? = C[p]? := by
  induction n with
  | zero => rfl
  | succ n ih =>
    rw [fillRow_succ, List.getElem?_set_ne (by omega)]
    exact ih (by omega)

theorem fillRows_succ {α : Type} (v : Nat → Nat → α) (K n : Nat) (C : List α) :
    fillRows v K (n + 1) C = fillRow (v n) (n * K) K (fillRows v K n C) := by
  simp [fillRows, List.range_succ, List.foldl_append]

theorem fillRows_length {α : Type} (v : Nat → Nat → α) (K n : Nat) (C : List α) :
    (fillRows v K n C).length = C.length := by
  induction n with
  | zero => rfl
  | succ n ih => rw [fillRows_succ, fillRow_length, ih]

theorem fillRows_get_out {α : Type} (v : Nat → Nat → α) (K n : Nat) (C : List α) (p : Nat)
    (hp : n * K ≤ p) : (fillRows v K n C)[p]? = C[p]? := by
  induction n with
  | zero => rfl
  | succ n ih =>
    have h1 : (n + 1) * K = n * K + K := Nat.succ_mul n K
    rw [fillRows_succ, fillRow_get_out _ _ _ _ _ (Or.inr (by omega))]
    exact ih (by omega)

theorem index_lt (a b n m : Nat) (ha : a < n) (hb : b < m) : a * m + b < n * m :=
  calc a * m + b < a * m + m := by omega
    _ = (a + 1) * m := (Nat.succ_mul a m).symm
    _ ≤ n * m := Nat.mul_le_mul_right m ha

theorem fillRows_get_in {α : Type} (v : Nat → Nat → α) (K n : Nat) (C : List α) (i k : Nat)
    (hi : i < n) (hk : k < K) (hlen : i * K + k < C.length) :
    (fillRows v K n C)[i * K + k]? = some (v i k) := by
  induction n with
  | zero => omega
  | succ n ih =>
    rw [fillRows_succ]
    by_cases h : i = n
    · subst h
      exact fillRow_get_in _ _ _ _ _ hk (by rw [fillRows_length]; exact hlen)
    · have hin : i < n := by omega
      have h1 := index_lt i k n K hin hk
      rw [fillRow_get_out _ _ _ _ _ (Or.inl h1)]
      exact ih hin

/-! ## mat_mult: the call as a whole -/

/-- The innermost loop of `mat_mult` succeeds when row `i` of `A` and column
`k` of `B` lie inside their buffers, and it accumulates their dot product. -/
theorem inner_loop_eq {α : Type} [Zero α] [Add α] [Mul α] (A B : List α) (J K i k : Nat)
    (hA : ∀ j, j < J → i * J + j < A.length) (hB : ∀ j, j < J → j * K + k < B.length) :
    forLoop J (fun j t => do
        let a ← A[i * J + j]?
        let b ← B[j * K + k]?
        pure (t + a * b)) (0 : α) = some (dotRowCol A B J K i k) := by
  refine (forLoop_eq_foldl (fun _ => True)
    (fun j t => t + cell A (i * J + j) * cell B (j * K + k)) _ J 0 trivial ?_).1
  intro j hj t _
  simp [get_cell A _ (hA j hj), get_cell B _ (hB j hj)]

/-- Within the stated buffer sizes no access of `mat_mult` leaves its buffer,
and the call returns `C` with the product written over its first `I*K` cells. -/
theorem mat_mult_eq_fill {α : Type} [Zero α] [Add α] [Mul α] (A B C : List α) (I J K : Nat)
    (hA : I * J ≤ A.length) (hB : J * K ≤ B.length) (hC : I * K ≤ C.length) :
    mat_mult A B C I J K = some (fillRows (fun i k => dotRowCol A B J K i k) K I C) := by
  refine (forLoop_eq_foldl (fun X => X.length = C.length)
    (fun i X => fillRow (fun k => dotRowCol A B J K i k) (i * K) K X) _ I C rfl ?_).1
  intro i hi X hX
  refine ⟨?_, by show (fillRow _ _ _ _).length = _; rw [fillRow_length]; exact hX⟩
  refine (forLoop_eq_foldl (fun Y => Y.length = C.length)
    (fun k Y => Y.set (i * K + k) (dotRowCol A B J K i k)) _ K X hX ?_).1
  intro k hk Y hY
  have h1 := index_lt i k I K hi hk
  rw [inner_loop_eq A B J K i k (fun j hj => by have := index_lt i j I J hi hj; omega)
    (fun j hj => by have := index_lt j k J K hj hk; omega)]
  refine ⟨?_, by show (List.set _ _ _).length = _; rw [List.length_set]; exact hY⟩
  simp [store, hY]
  omega

/-! ## C1 -/

/-- C1: `mat_mult` computes the row-major matrix product. For all dimensions
`I`, `J`, `K` and buffers `A`, `B`, `C` of lengths `I*J`, `J*K`, `I*K`, the
call returns, and afterwards every cell `C[i*K+k]` with `i < I` and `k < K`
holds the sum over `j < J` of `A[i*J+j] * B[j*K+k]`, taken in increasing `j`
starting from `0`. No law of arithmetic is assumed. -/
theorem mat_mult_row_major_product {α : Type} [Zero α] [Add α] [Mul α]
    (A B C : List α) (I J K : Nat)
    (hA : A.length = I * J) (hB : B.length = J * K) (hC : C.length = I * K) :
    ∃ Cn, mat_mult A B C I J K = some Cn ∧
      ∀ i k, i < I → k < K →
        Cn[i * K + k]? =
          some ((List.range J).foldl
            (fun t j => t + cell A (i * J + j) * cell B (j * K + k)) 0) := by
  refine ⟨_, mat_mult_eq_fill A B C I J K (by omega) (by omega) (by omega), ?_⟩
  intro i k hi hk
  have h1 := index_lt i k I K hi hk
  exact fillRows_get_in _ K I C i k hi hk (by omega)

/-- C1 at a 2-by-3 times 3-by-1 product over the natural numbers. -/
theorem mat_mult_row_major_product_witness :
    ∃ Cn, mat_mult [1, 2, 3, 4, 5, 6] [7, 8, 9] [0, 0] 2 3 1 = some Cn ∧
      ∀ i k, i < 2 → k < 1 →
        Cn[i * 1 + k]? =
          some ((List.range 3).foldl
            (fun t j => t + cell [1, 2, 3, 4, 5, 6] (i * 3 + j) * cell [7, 8, 9] (j * 1 + k))
            (0 : Nat)) :=
  mat_mult_row_major_product [1, 2, 3, 4, 5, 6] [7, 8, 9] [0, 0] 2 3 1 rfl rfl rfl

/-! ## newton: one turn of the loop -/

theorem newton_exit {α : Type} [LinearOrderedField α] (fuel : Nat) (f fprime : α → α)
    (guess tolerance : α) (h : |f guess| ≤ tolerance) :
    newton fuel f fprime guess tolerance = some guess := by
  unfold newton
  rw [if_neg (not_lt.mpr h)]

theorem newton_step {α : Type} [LinearOrderedField α] (fuel : Nat) (f fprime : α → α)
    (guess tolerance : α) (h : tolerance < |f guess|) :
    newton (fuel + 1) f fprime guess tolerance =
      newton fuel f fprime (guess - f guess / fprime guess) tolerance := by
  rw [newton, if_pos h]

theorem newton_stuck {α : Type} [LinearOrderedField α] (f fprime : α → α)
    (guess tolerance : α) (h : tolerance < |f guess|) :
    newton 0 f fprime guess tolerance = none := by
  rw [newton, if_pos h]

/-! ## newton in exact arithmetic: the result is within the tolerance -/

/-- In exact arithmetic, whenever `newton f fprime guess tolerance` returns a
value `r` (after any number of updates), `|f r| ≤ tolerance`. -/
theorem newton_exact_within_tolerance {α : Type} [LinearOrderedField α]
    (fuel : Nat) (f fprime : α → α) (guess tolerance r : α)
    (h : newton fuel f fprime guess tolerance = some r) : |f r| ≤ tolerance := by
  induction fuel generalizing guess with
  | zero =>
    by_cases hg : tolerance < |f guess|
    · rw [newton_stuck f fprime guess tolerance hg] at h; cases h
    · rw [newton_exit 0 f fprime guess tolerance (not_lt.mp hg)] at h
      cases h; exact not_lt.mp hg
  | succ n ih =>
    by_cases hg : tolerance < |f guess|
    · rw [newton_step n f fprime guess tolerance hg] at h; exact ih _ h
    · rw [newton_exit _ f fprime guess tolerance (not_lt.mp hg)] at h
      cases h; exact not_lt.mp hg

/-! ## C3 -/

/-- C3: for every `t0`, `u0`, `dt` and derivative `f`, `rk4 t0 u0 dt f` is
`u0 + dt * (f0 + 2 * f1 + 2 * f2 + f3) / 6` with `f0 = f t0 u0`,
`f1 = f (t0 + dt/2) (u0 + dt*f0/2)`, `f2 = f (t0 + dt/2) (u0 + dt*f1/2)` and
`f3 = f (t0 + dt) (u0 + dt*f2)`; and `f` is called exactly four times, at
these points and in this order. No law of arithmetic is assumed. -/
theorem rk4_classical_step {α : Type} [Add α] [Mul α] [Div α] [OfNat α 2] [OfNat α 6]
    (t0 u0 dt : α) (f : α → α → α) (f0 f1 f2 f3 : α)
    (h0 : f0 = f t0 u0)
    (h1 : f1 = f (t0 + dt / 2) (u0 + dt * f0 / 2))
    (h2 : f2 = f (t0 + dt / 2) (u0 + dt * f1 / 2))
    (h3 : f3 = f (t0 + dt) (u0 + dt * f2)) :
    rk4 t0 u0 dt f = u0 + dt * (f0 + 2 * f1 + 2 * f2 + f3) / 6 ∧
    StateT.run (rk4M t0 u0 dt (logged f)) [] =
      ((u0 + dt * (f0 + 2 * f1 + 2 * f2 + f3) / 6,
        [(t0, u0), (t0 + dt / 2, u0 + dt * f0 / 2),
         (t0 + dt / 2, u0 + dt * f1 / 2), (t0 + dt, u0 + dt * f2)]) : α × List (α × α)) := by
  subst h0 h1 h2 h3
  exact ⟨rfl, rfl⟩

/-- C3 at `f t u = u`, `t0 = 0`, `u0 = 1`, `dt = 1/10`: the samples of the
derivative are `1`, `21/20`, `421/400`, `4421/4000`. -/
theorem rk4_classical_step_witness :
    rk4 (0 : ℚ) 1 (1 / 10) (fun _ u => u) =
        1 + 1 / 10 * (1 + 2 * (21 / 20) + 2 * (421 / 400) + 4421 / 4000) / 6 ∧
    StateT.run (rk4M (0 : ℚ) 1 (1 / 10) (logged (fun _ u => u))) [] =
      ((1 + 1 / 10 * (1 + 2 * (21 / 20) + 2 * (421 / 400) + 4421 / 4000) / 6,
        [(0, 1), (0 + 1 / 10 / 2, 1 + 1 / 10 * 1 / 2),
         (0 + 1 / 10 / 2, 1 + 1 / 10 * (21 / 20) / 2),
         (0 + 1 / 10, 1 + 1 / 10 * (421 / 400))]) : ℚ × List (ℚ × ℚ)) :=
  rk4_classical_step (0 : ℚ) 1 (1 / 10) (fun _ u => u) 1 (21 / 20) (421 / 400) (4421 / 4000)
    rfl (by norm_num) (by norm_num) (by norm_num)

/-! ## rk4vec: the call as a whole -/

theorem malloc_length {α : Type} (junk : Nat → α) (m : Nat) : (malloc junk m).length = m := by
  simp [malloc]

theorem fillRow_zero_get {α : Type} (v : Nat → α) (n : Nat) (C : List α) (k : Nat)
    (hk : k < n) (hlen : k < C.length) : (fillRow v 0 n C)[k]? = some (v k) := by
  have h := fillRow_get_in v 0 n C k hk (by omega)
  rwa [Nat.zero_add] at h

/-- Overwriting all cells of a block of `m` cells leaves the values written. -/
theorem fillRow_all {α : Type} (v : Nat → α) (m : Nat) (C : List α) (hC : C.length = m) :
    fillRow v 0 m C = (List.range m).map v := by
  apply List.ext_getElem?
  intro p
  by_cases hp : p < m
  · rw [fillRow_zero_get v m C p hp (by omega)]
    simp [List.getElem?_map, List.getElem?_range hp]
  · rw [List.getElem?_eq_none (by rw [fillRow_length]; omega),
      List.getElem?_eq_none (by simp; omega)]

/-- A loop `for i < m: buf[i] = c (u[i], k[i])` of `rk4vec`. -/
theorem stage_loop {α : Type} [Zero α] (c : α → α → α) (u k buf : List α) (m : Nat)
    (hu : m ≤ u.length) (hk : m ≤ k.length) (hb : m ≤ buf.length) :
    forLoop m (fun i s => do
        let a ← u[i]?
        let b ← k[i]?
        store s i (c a b)) buf =
      some (fillRow (fun i => c (cell u i) (cell k i)) 0 m buf) := by
  refine (forLoop_eq_foldl (fun s => s.length = buf.length)
    (fun i s => s.set (0 + i) (c (cell u i) (cell k i))) _ m buf rfl ?_).1
  intro i hi s hs
  refine ⟨?_, by show (List.set _ _ _).length = _; rw [List.length_set]; exact hs⟩
  simp [get_cell u i (by omega), get_cell k i (by omega), store, hs]
  omega

/-- The last loop of `rk4vec`, which combines the four samples. -/
theorem combine_loop {α : Type} [Zero α] (c : α → α → α → α → α → α)
    (u k0 k1 k2 k3 buf : List α) (m : Nat)
    (hu : m ≤ u.length) (h0 : m ≤ k0.length) (h1 : m ≤ k1.length) (h2 : m ≤ k2.length)
    (h3 : m ≤ k3.length) (hb : m ≤ buf.length) :
    forLoop m (fun i s => do
        let a ← u[i]?
        let b0 ← k0[i]?
        let b1 ← k1[i]?
        let b2 ← k2[i]?
        let b3 ← k3[i]?
        store s i (c a b0 b1 b2 b3)) buf =
      some (fillRow (fun i => c (cell u i) (cell k0 i) (cell k1 i) (cell k2 i) (cell k3 i))
        0 m buf) := by
  refine (forLoop_eq_foldl (fun s => s.length = buf.length)
    (fun i s => s.set (0 + i) (c (cell u i) (cell k0 i) (cell k1 i) (cell k2 i) (cell k3 i)))
    _ m buf rfl ?_).1
  intro i hi s hs
  refine ⟨?_, by show (List.set _ _ _).length = _; rw [List.length_set]; exact hs⟩
  simp [get_cell u i (by omega), get_cell k0 i (by omega), get_cell k1 i (by omega),
    get_cell k2 i (by omega), get_cell k3 i (by omega), store, hs]
  omega

/-- For a callback that computes `G`, `rk4vec` returns with `u0` as it was and
with the classical Runge-Kutta combination written over the first `m` cells
of `out`. -/
theorem rk4vec_eq_fill {α : Type} [Zero α] [Add α] [Mul α] [Div α] [OfNat α 2] [OfNat α 6]
    (junk : Nat → Nat → α) (t0 : α) (m : Nat) (u0 : List α) (dt : α)
    (f : α → Nat → List α → List α → List α × List α) (G : α → List α → List α)
    (out : List α) (hf : Computes f G m) (hu : m ≤ u0.length) (ho : m ≤ out.length) :
    rk4vec junk t0 m u0 dt f out =
      some (u0, fillRow (fun i => cell u0 i + dt *
        (cell (G t0 u0) i
          + 2 * cell (G (t0 + dt / 2) (halfStep u0 (G t0 u0) dt m)) i
          + 2 * cell (G (t0 + dt / 2)
              (halfStep u0 (G (t0 + dt / 2) (halfStep u0 (G t0 u0) dt m)) dt m)) i
          + cell (G (t0 + dt) (fullStep u0 (G (t0 + dt / 2)
              (halfStep u0 (G (t0 + dt / 2) (halfStep u0 (G t0 u0) dt m)) dt m)) dt m)) i) / 6)
        0 m out) := by
  have hlen : ∀ t u, m ≤ (G t u).length := fun t u =>
    le_of_eq ((hf t u (malloc (junk 0) m) (malloc_length _ _)).2).symm
  have hcall : ∀ t u n, f t m u (malloc (junk n) m) = (u, G t u) := fun t u n =>
    (hf t u _ (malloc_length _ _)).1
  have hhalf : ∀ (k : List α) (n : Nat), m ≤ k.length →
      forLoop m (fun i s => do
        let a ← u0[i]?
        let b ← k[i]?
        store s i (a + dt * b / 2)) (malloc (junk n) m) = some (halfStep u0 k dt m) := by
    intro k n hk
    rw [stage_loop (fun a b => a + dt * b / 2) u0 k _ m hu hk (le_of_eq (malloc_length _ _).symm),
      fillRow_all _ m _ (malloc_length _ _)]
    rfl
  have hfull : ∀ (k : List α) (n : Nat), m ≤ k.length →
      forLoop m (fun i s => do
        let a ← u0[i]?
        let b ← k[i]?
        store s i (a + dt * b)) (malloc (junk n) m) = some (fullStep u0 k dt m) := by
    intro k n hk
    rw [stage_loop (fun a b => a + dt * b) u0 k _ m hu hk (le_of_eq (malloc_length _ _).symm),
      fillRow_all _ m _ (malloc_length _ _)]
    rfl
  have hcomb := combine_loop (fun a b0 b1 b2 b3 => a + dt * (b0 + 2 * b1 + 2 * b2 + b3) / 6)
    u0 (G t0 u0) (G (t0 + dt / 2) (halfStep u0 (G t0 u0) dt m))
    (G (t0 + dt / 2) (halfStep u0 (G (t0 + dt / 2) (halfStep u0 (G t0 u0) dt m)) dt m))
    (G (t0 + dt) (fullStep u0 (G (t0 + dt / 2)
      (halfStep u0 (G (t0 + dt / 2) (halfStep u0 (G t0 u0) dt m)) dt m)) dt m))
    out m hu (hlen _ _) (hlen _ _) (hlen _ _) (hlen _ _) ho
  simp only [Option.bind_eq_bind] at hhalf hfull hcomb
  unfold rk4vec
  simp only [hcall, Option.bind_eq_bind, Option.pure_def]
  rw [hhalf _ _ (hlen _ _), Option.some_bind, hhalf _ _ (hlen _ _), Option.some_bind,
    hfull _ _ (hlen _ _), Option.some_bind, hcomb, Option.some_bind]


theorem store_eq_some {α : Type} (buf : List α) (n : Nat) (v : α) (r : List α)
    (h : store buf n v = some r) : n < buf.length ∧ r = buf.set n v := by
  unfold store at h
  split at h
  · exact ⟨by assumption, by cases h; rfl⟩
  · cases h

theorem oscillator_computes {α : Type} [Zero α] [Neg α] :
    Computes (oscillator : α → Nat → List α → List α → List α × List α) oscillatorField 2 := by
  intro t u b hb
  match b, hb with
  | [x, y], _ => exact ⟨rfl, rfl⟩

theorem oscillator_run :
    rk4vec (fun _ _ => (7 : ℚ)) 0 2 [1, 0] (1 / 10) oscillator [9, 9, 9] =
      some ([1, 0], [238801 / 240000, -599 / 6000, 9]) := by
  rw [rk4vec_eq_fill _ _ _ _ _ _ oscillatorField _ oscillator_computes (by simp) (by simp)]
  simp [fillRow, List.range_succ, cell, halfStep, fullStep, oscillatorField]
  norm_num

/-! ## C4 -/

/-- C4: `rk4vec` performs the classical RK4 step component-wise. For a
callback that computes the vector derivative `G`, and buffers `u0` and `out`
of length `m`, the call returns, and afterwards every `i < m` has
`out[i] = u0[i] + dt * (k0[i] + 2*k1[i] + 2*k2[i] + k3[i]) / 6` where
`k0 = G t0 u0`, `k1 = G (t0 + dt/2) (u0 + dt*k0/2)`,
`k2 = G (t0 + dt/2) (u0 + dt*k1/2)`, `k3 = G (t0 + dt) (u0 + dt*k2)`, the
intermediate states being formed entry by entry. No law of arithmetic is
assumed, and the initial contents of the scratch blocks do not matter. -/
theorem rk4vec_componentwise {α : Type} [Zero α] [Add α] [Mul α] [Div α] [OfNat α 2]
    [OfNat α 6] (junk : Nat → Nat → α) (t0 : α) (m : Nat) (u0 : List α) (dt : α)
    (f : α → Nat → List α → List α → List α × List α) (G : α → List α → List α)
    (out k0 k1 k2 k3 : List α)
    (hf : Computes f G m) (hu : u0.length = m) (ho : out.length = m)
    (h0 : k0 = G t0 u0)
    (h1 : k1 = G (t0 + dt / 2) (halfStep u0 k0 dt m))
    (h2 : k2 = G (t0 + dt / 2) (halfStep u0 k1 dt m))
    (h3 : k3 = G (t0 + dt) (fullStep u0 k2 dt m)) :
    ∃ outn, rk4vec junk t0 m u0 dt f out = some (u0, outn) ∧
      ∀ i, i < m → outn[i]? =
        some (cell u0 i + dt * (cell k0 i + 2 * cell k1 i + 2 * cell k2 i + cell k3 i) / 6) := by
  subst h0 h1 h2 h3
  refine ⟨_, rk4vec_eq_fill junk t0 m u0 dt f G out hf (by omega) (by omega), ?_⟩
  intro i hi
  exact fillRow_zero_get _ m out i hi (by omega)

/-- C4 at the harmonic oscillator, `u0 = [1, 0]`, `dt = 1/10`: the step gives
`[238801/240000, -599/6000]`. -/
theorem rk4vec_componentwise_witness :
    Computes (oscillator : ℚ → Nat → List ℚ → List ℚ → List ℚ × List ℚ) oscillatorField 2 ∧
    ∃ outn, rk4vec (fun _ _ => (7 : ℚ)) 0 2 [1, 0] (1 / 10) oscillator [9, 9] =
        some ([1, 0], outn) ∧
      outn[0]? = some (238801 / 240000 : ℚ) ∧ outn[1]? = some (-599 / 6000 : ℚ) := by
  refine ⟨oscillator_computes, ?_⟩
  obtain ⟨outn, hrun, hval⟩ := rk4vec_componentwise (fun _ _ => (7 : ℚ)) 0 2 [1, 0] (1 / 10)
    oscillator oscillatorField [9, 9] _ _ _ _ oscillator_computes rfl rfl rfl rfl rfl rfl
  refine ⟨outn, hrun, (hval 0 (by decide)).trans ?_, (hval 1 (by decide)).trans ?_⟩
  · simp [List.range_succ, cell, halfStep, fullStep, oscillatorField]
    norm_num
  · simp [List.range_succ, cell, halfStep, fullStep, oscillatorField]
    norm_num

/-! ## C5 -/

/-- C5: `rk4vec` leaves the input state unchanged and overwrites only the
first `m` cells of the output. For a callback that only writes its own output
buffer, whenever the call returns, `u0` is as before, `out` has kept its
length, and every cell `out[i]` with `i ≥ m` is unchanged. -/
theorem rk4vec_frame {α : Type} [Add α] [Mul α] [Div α] [OfNat α 2] [OfNat α 6]
    (junk : Nat → Nat → α) (t0 : α) (m : Nat) (u0 : List α) (dt : α)
    (f : α → Nat → List α → List α → List α × List α) (out u0n outn : List α)
    (hf : ∀ t u b, (f t m u b).1 = u)
    (h : rk4vec junk t0 m u0 dt f out = some (u0n, outn)) :
    u0n = u0 ∧ outn.length = out.length ∧ ∀ i, m ≤ i → outn[i]? = out[i]? := by
  unfold rk4vec at h
  simp only [Option.bind_eq_bind, Option.pure_def, Option.bind_eq_some] at h
  obtain ⟨u1, -, u2, -, u3, -, o, hloop, hres⟩ := h
  have h1 : u0n = (f t0 m u0 (malloc (junk 0) m)).1 := by
    cases hres; rfl
  have h2 : outn = o := by cases hres; rfl
  subst h2
  refine ⟨h1.trans (hf _ _ _), ?_⟩
  refine forLoop_invariant (fun s => s.length = out.length ∧ ∀ i, m ≤ i → s[i]? = out[i]?)
    _ m out outn ⟨rfl, fun _ _ => rfl⟩ ?_ hloop
  intro i hi s r hs hbody
  simp only [Option.bind_eq_bind, Option.bind_eq_some] at hbody
  obtain ⟨a, -, b0, -, b1, -, b2, -, b3, -, hst⟩ := hbody
  obtain ⟨-, rfl⟩ := store_eq_some _ _ _ _ hst
  refine ⟨by rw [List.length_set]; exact hs.1, ?_⟩
  intro p hp
  rw [List.getElem?_set_ne (by omega)]
  exact hs.2 p hp

/-- C5 at the harmonic oscillator with an output buffer of three cells: the
third cell keeps its value `9`. -/
theorem rk4vec_frame_witness :
    (∀ (t : ℚ) (u b : List ℚ), (oscillator t 2 u b).1 = u) ∧
    rk4vec (fun _ _ => (7 : ℚ)) 0 2 [1, 0] (1 / 10) oscillator [9, 9, 9] =
      some ([1, 0], [238801 / 240000, -599 / 6000, 9]) ∧
    (([1, 0] : List ℚ) = [1, 0] ∧
      ([238801 / 240000, -599 / 6000, 9] : List ℚ).length = ([9, 9, 9] : List ℚ).length ∧
      ∀ i, 2 ≤ i →
        ([238801 / 240000, -599 / 6000, 9] : List ℚ)[i]? = ([9, 9, 9] : List ℚ)[i]?) :=
  ⟨fun _ _ _ => rfl, oscillator_run,
    rk4vec_frame (fun _ _ => (7 : ℚ)) 0 2 [1, 0] (1 / 10) oscillator [9, 9, 9] [1, 0]
      [238801 / 240000, -599 / 6000, 9] (fun _ _ _ => rfl) oscillator_run⟩

/-! ## mat_mult in exact arithmetic -/

theorem foldl_add_eq_sum {α : Type} [AddCommMonoid α] (g : Nat → α) (n : Nat) :
    (List.range n).foldl (fun t j => t + g j) 0 = ∑ j in Finset.range n, g j := by
  induction n with
  | zero => rfl
  | succ n ih => rw [List.range_succ, List.foldl_append, ih, Finset.sum_range_succ]; rfl

theorem dotRowCol_eq_sum {α : Type} [Semiring α] (A B : List α) (J K i k : Nat) :
    dotRowCol A B J K i k = ∑ j in Finset.range J, cell A (i * J + j) * cell B (j * K + k) :=
  foldl_add_eq_sum _ J

theorem index_split (p n K : Nat) (hp : p < n * K) :
    p / K < n ∧ p % K < K ∧ p / K * K + p % K = p := by
  have hK : 0 < K := by
    rcases Nat.eq_zero_or_pos K with h | h
    · subst h; simp at hp
    · exact h
  refine ⟨(Nat.div_lt_iff_lt_mul hK).mpr hp, Nat.mod_lt _ hK, ?_⟩
  rw [Nat.mul_comm]; exact Nat.div_add_mod p K

/-- When `C` has exactly `n*K` cells, filling its `n` rows overwrites it
entirely. -/
theorem fillRows_full {α : Type} (v : Nat → Nat → α) (K n : Nat) (C : List α)
    (hC : C.length = n * K) :
    fillRows v K n C = (List.range (n * K)).map (fun p => v (p / K) (p % K)) := by
  apply List.ext_getElem?
  intro p
  by_cases hp : p < n * K
  · obtain ⟨h1, h2, h3⟩ := index_split p n K hp
    have := fillRows_get_in v K n C (p / K) (p % K) h1 h2 (by omega)
    rw [h3] at this
    rw [this]
    simp [List.getElem?_map, List.getElem?_range hp]
  · rw [List.getElem?_eq_none (by rw [fillRows_length]; omega),
      List.getElem?_eq_none (by simp; omega)]

theorem eq_map_cell {α : Type} [Zero α] (B : List α) (N : Nat) (hB : B.length = N) :
    B = (List.range N).map (cell B) := by
  apply List.ext_getElem?
  intro p
  by_cases hp : p < N
  · rw [get_cell B p (by omega)]
    simp [List.getElem?_map, List.getElem?_range hp]
  · rw [List.getElem?_eq_none (by omega), List.getElem?_eq_none (by simp; omega)]

/-- The product buffer, when `C` has exactly `I*K` cells. -/
theorem mat_mult_eq_map {α : Type} [Zero α] [Add α] [Mul α] (A B C : List α) (I J K : Nat)
    (hA : A.length = I * J) (hB : B.length = J * K) (hC : C.length = I * K) :
    mat_mult A B C I J K =
      some ((List.range (I * K)).map (fun p => dotRowCol A B J K (p / K) (p % K))) := by
  rw [mat_mult_eq_fill A B C I J K (by omega) (by omega) (by omega), fillRows_full _ K I C hC]

theorem map_range_congr {α : Type} (g h : Nat → α) (N : Nat) (hgh : ∀ p, p < N → g p = h p) :
    (List.range N).map g = (List.range N).map h :=
  List.map_congr_left (fun p hp => hgh p (List.mem_range.mp hp))

theorem cell_map_range {α : Type} [Zero α] (g : Nat → α) (N p : Nat) (hp : p < N) :
    cell ((List.range N).map g) p = g p := by
  apply cell_of_get
  simp [List.getElem?_map, List.getElem?_range hp]

theorem cell_identity {α : Type} [Zero α] [One α] (n i j : Nat) (hi : i < n) (hj : j < n) :
    cell (identity n : List α) (i * n + j) = if i = j then 1 else 0 := by
  have hp := index_lt i j n n hi hj
  unfold identity
  rw [cell_map_range _ _ _ hp]
  have h1 : (i * n + j) / n = i := by
    rw [Nat.mul_comm, Nat.mul_add_div (by omega), Nat.div_eq_of_lt hj, Nat.add_zero]
  have h2 : (i * n + j) % n = j := by
    rw [Nat.mul_comm, Nat.mul_add_mod, Nat.mod_eq_of_lt hj]
  rw [h1, h2]

theorem cell_product {α : Type} [Zero α] (v : Nat → Nat → α) (I K i k : Nat)
    (hi : i < I) (hk : k < K) :
    cell ((List.range (I * K)).map (fun p => v (p / K) (p % K))) (i * K + k) = v i k := by
  have hp := index_lt i k I K hi hk
  rw [cell_map_range _ _ _ hp]
  have h1 : (i * K + k) / K = i := by
    rw [Nat.mul_comm, Nat.mul_add_div (by omega), Nat.div_eq_of_lt hk, Nat.add_zero]
  have h2 : (i * K + k) % K = k := by
    rw [Nat.mul_comm, Nat.mul_add_mod, Nat.mod_eq_of_lt hk]
  rw [h1, h2]

theorem addEntries_map_range {α : Type} [Add α] (g h : Nat → α) (N : Nat) :
    addEntries ((List.range N).map g) ((List.range N).map h) =
      (List.range N).map (fun p => g p + h p) := by
  simp [addEntries, List.zipWith_map, List.zipWith_same]

theorem cell_addEntries {α : Type} [Zero α] [Add α] (X Y : List α) (p : Nat)
    (hX : p < X.length) (hY : p < Y.length) :
    cell (addEntries X Y) p = cell X p + cell Y p := by
  apply cell_of_get
  simp [addEntries, List.getElem?_zipWith, get_cell X p hX, get_cell Y p hY]

theorem length_addEntries {α : Type} [Add α] (X Y : List α) (N : Nat)
    (hX : X.length = N) (hY : Y.length = N) : (addEntries X Y).length = N := by
  simp [addEntries, hX, hY]

/-! ## C6 -/

/-- C6: the identity matrix is neutral for `mat_mult` in exact arithmetic (a
semiring). With `A` the `n`-by-`n` identity and `I = J = n`, the call writes
`C` equal to the `n`-by-`K` matrix `B`, entry for entry; with `B` the
`n`-by-`n` identity it writes `C` equal to the `I`-by-`n` matrix `A`. -/
theorem mat_mult_identity {α : Type} [Semiring α] (n K I : Nat) (B C A D : List α)
    (hB : B.length = n * K) (hC : C.length = n * K)
    (hA : A.length = I * n) (hD : D.length = I * n) :
    mat_mult (identity n) B C n n K = some B ∧ mat_mult A (identity n) D I n n = some A := by
  constructor
  · rw [mat_mult_eq_map _ B C n n K (by simp [identity]) hB hC]
    conv_rhs => rw [eq_map_cell B _ hB]
    congr 1
    apply map_range_congr
    intro p hp
    obtain ⟨h1, h2, h3⟩ := index_split p n K hp
    rw [dotRowCol_eq_sum, Finset.sum_congr rfl (fun j hj => by
      rw [cell_identity n (p / K) j h1 (Finset.mem_range.mp hj)])]
    simp [Finset.sum_ite_eq, h1, h3]
  · rw [mat_mult_eq_map A _ D I n n hA (by simp [identity]) hD]
    conv_rhs => rw [eq_map_cell A _ hA]
    congr 1
    apply map_range_congr
    intro p hp
    obtain ⟨h1, h2, h3⟩ := index_split p I n hp
    rw [dotRowCol_eq_sum, Finset.sum_congr rfl (fun j hj => by
      rw [cell_identity n j (p % n) (Finset.mem_range.mp hj) h2])]
    simp [Finset.sum_ite_eq', h2, h3]


/-- C6 at `n = K = 2` (the case of the specification) and at a 3-by-2 matrix on
the left. -/
theorem mat_mult_identity_witness :
    mat_mult (identity 2) [5, 6, 7, 8] [0, 0, 0, 0] 2 2 2 = some ([5, 6, 7, 8] : List ℚ) ∧
    mat_mult [1, 2, 3, 4, 5, 6] (identity 2) [0, 0, 0, 0, 0, 0] 3 2 2 =
      some ([1, 2, 3, 4, 5, 6] : List ℚ) :=
  mat_mult_identity 2 2 3 [5, 6, 7, 8] [0, 0, 0, 0] [1, 2, 3, 4, 5, 6] [0, 0, 0, 0, 0, 0]
    rfl rfl rfl rfl

/-! ## C7 -/

/-- C7: for `A = [1,2,3,4]`, `B = [5,6,7,8]` (row-major 2-by-2) and
`I = J = K = 2`, `mat_mult` writes `C = [19,22,43,50]`, whatever the four
cells of `C` held before. -/
theorem mat_mult_example {α : Type} [Semiring α] (C : List α) (hC : C.length = 4) :
    mat_mult [1, 2, 3, 4] [5, 6, 7, 8] C 2 2 2 = some [19, 22, 43, 50] := by
  rw [mat_mult_eq_map [1, 2, 3, 4] [5, 6, 7, 8] C 2 2 2 rfl rfl hC]
  simp [List.range_succ, dotRowCol, cell]
  norm_num

/-- C7 with `C` holding `[9, 9, 9, 9]` before the call. -/
theorem mat_mult_example_witness :
    mat_mult [1, 2, 3, 4] [5, 6, 7, 8] [9, 9, 9, 9] 2 2 2 = some ([19, 22, 43, 50] : List ℚ) :=
  mat_mult_example [9, 9, 9, 9] rfl

/-! ## C8 -/

/-- C8: `mat_mult` is associative in exact arithmetic (a semiring). For
matrices `A` (`I`-by-`J`), `B` (`J`-by-`K`) and `D` (`K`-by-`L`), computing
`AB` with `mat_mult` and multiplying the result by `D` gives the same
`I`-by-`L` buffer as computing `BD` with `mat_mult` and multiplying `A` by
it; all four calls return. -/
theorem mat_mult_assoc {α : Type} [Semiring α] (I J K L : Nat) (A B D X Y E1 E2 : List α)
    (hA : A.length = I * J) (hB : B.length = J * K) (hD : D.length = K * L)
    (hX : X.length = I * K) (hY : Y.length = J * L)
    (hE1 : E1.length = I * L) (hE2 : E2.length = I * L) :
    ∃ AB BD R, mat_mult A B X I J K = some AB ∧ mat_mult AB D E1 I K L = some R ∧
      mat_mult B D Y J K L = some BD ∧ mat_mult A BD E2 I J L = some R := by
  refine ⟨_, _, _, mat_mult_eq_map A B X I J K hA hB hX,
    mat_mult_eq_map _ D E1 I K L (by simp) hD hE1,
    mat_mult_eq_map B D Y J K L hB hD hY, ?_⟩
  rw [mat_mult_eq_map A _ E2 I J L hA (by simp) hE2]
  congr 1
  apply map_range_congr
  intro p hp
  obtain ⟨h1, h2, -⟩ := index_split p I L hp
  rw [dotRowCol_eq_sum, dotRowCol_eq_sum,
    Finset.sum_congr rfl (fun j hj => by
      rw [cell_product _ J L j (p % L) (Finset.mem_range.mp hj) h2, dotRowCol_eq_sum,
        Finset.mul_sum]),
    Finset.sum_comm]
  refine Finset.sum_congr rfl (fun k hk => ?_)
  rw [cell_product _ I K (p / L) k h1 (Finset.mem_range.mp hk), dotRowCol_eq_sum,
    Finset.sum_mul]
  exact Finset.sum_congr rfl (fun j _ => (mul_assoc _ _ _).symm)

/-- C8 at a 1-by-2, a 2-by-2 and a 2-by-1 matrix over the integers. -/
theorem mat_mult_assoc_witness :
    ∃ AB BD R : List ℤ, mat_mult [1, 2] [1, 2, 3, 4] [0, 0] 1 2 2 = some AB ∧
      mat_mult AB [5, 6] [0] 1 2 1 = some R ∧
      mat_mult [1, 2, 3, 4] [5, 6] [0, 0] 2 2 1 = some BD ∧
      mat_mult [1, 2] BD [0] 1 2 1 = some R :=
  mat_mult_assoc 1 2 2 1 [1, 2] [1, 2, 3, 4] [5, 6] [0, 0] [0, 0] [0] [0]
    rfl rfl rfl rfl rfl rfl rfl

/-! ## C9 -/

/-- C9: `mat_mult` distributes over entry-wise addition in exact arithmetic (a
semiring): the result on `A` and `B1 + B2` is the entry-wise sum of the
results on `(A, B1)` and `(A, B2)`, and the result on `A1 + A2` and `B` is the
entry-wise sum of the results on `(A1, B)` and `(A2, B)`. -/
theorem mat_mult_distrib {α : Type} [Semiring α] (I J K : Nat)
    (A A1 A2 B B1 B2 C1 C2 C3 D1 D2 D3 : List α)
    (hA : A.length = I * J) (hB1 : B1.length = J * K) (hB2 : B2.length = J * K)
    (hA1 : A1.length = I * J) (hA2 : A2.length = I * J) (hB : B.length = J * K)
    (hC1 : C1.length = I * K) (hC2 : C2.length = I * K) (hC3 : C3.length = I * K)
    (hD1 : D1.length = I * K) (hD2 : D2.length = I * K) (hD3 : D3.length = I * K) :
    (∃ P1 P2, mat_mult A B1 C1 I J K = some P1 ∧ mat_mult A B2 C2 I J K = some P2 ∧
      mat_mult A (addEntries B1 B2) C3 I J K = some (addEntries P1 P2)) ∧
    (∃ Q1 Q2, mat_mult A1 B D1 I J K = some Q1 ∧ mat_mult A2 B D2 I J K = some Q2 ∧
      mat_mult (addEntries A1 A2) B D3 I J K = some (addEntries Q1 Q2)) := by
  constructor
  · refine ⟨_, _, mat_mult_eq_map A B1 C1 I J K hA hB1 hC1,
      mat_mult_eq_map A B2 C2 I J K hA hB2 hC2, ?_⟩
    rw [mat_mult_eq_map A _ C3 I J K hA (length_addEntries _ _ _ hB1 hB2) hC3,
      addEntries_map_range]
    congr 1
    apply map_range_congr
    intro p hp
    obtain ⟨h1, h2, -⟩ := index_split p I K hp
    rw [dotRowCol_eq_sum, dotRowCol_eq_sum, dotRowCol_eq_sum, ← Finset.sum_add_distrib]
    refine Finset.sum_congr rfl (fun j hj => ?_)
    have hj2 := index_lt j (p % K) J K (Finset.mem_range.mp hj) h2
    rw [cell_addEntries B1 B2 _ (by omega) (by omega), mul_add]
  · refine ⟨_, _, mat_mult_eq_map A1 B D1 I J K hA1 hB hD1,
      mat_mult_eq_map A2 B D2 I J K hA2 hB hD2, ?_⟩
    rw [mat_mult_eq_map _ B D3 I J K (length_addEntries _ _ _ hA1 hA2) hB hD3,
      addEntries_map_range]
    congr 1
    apply map_range_congr
    intro p hp
    obtain ⟨h1, h2, -⟩ := index_split p I K hp
    rw [dotRowCol_eq_sum, dotRowCol_eq_sum, dotRowCol_eq_sum, ← Finset.sum_add_distrib]
    refine Finset.sum_congr rfl (fun j hj => ?_)
    have hj2 := index_lt (p / K) j I J h1 (Finset.mem_range.mp hj)
    rw [cell_addEntries A1 A2 _ (by omega) (by omega), add_mul]

/-- C9 at 1-by-2 matrices times 2-by-1 matrices over the integers. -/
theorem mat_mult_distrib_witness :
    (∃ P1 P2 : List ℤ, mat_mult [1, 2] [3, 4] [0] 1 2 1 = some P1 ∧
      mat_mult [1, 2] [5, 6] [0] 1 2 1 = some P2 ∧
      mat_mult [1, 2] (addEntries [3, 4] [5, 6]) [0] 1 2 1 = some (addEntries P1 P2)) ∧
    (∃ Q1 Q2 : List ℤ, mat_mult [1, 2] [7, 8] [0] 1 2 1 = some Q1 ∧
      mat_mult [3, 4] [7, 8] [0] 1 2 1 = some Q2 ∧
      mat_mult (addEntries [1, 2] [3, 4]) [7, 8] [0] 1 2 1 = some (addEntries Q1 Q2)) :=
  mat_mult_distrib 1 2 1 [1, 2] [1, 2] [3, 4] [7, 8] [3, 4] [5, 6] [0] [0] [0] [0] [0] [0]
    rfl rfl rfl rfl rfl rfl rfl rfl rfl rfl rfl rfl

/-! ## C10 -/

/-- The run of `newton` on `x^2 - 2` from guess `1` with tolerance `10^-10`,
over any linearly ordered field: four updates, through `3/2`, `17/12` and
`577/408`, to `665857/470832`. -/
theorem sqrt2_chain {α : Type} [LinearOrderedField α] :
    newton 4 (fun x : α => x ^ 2 - 2) (fun x => 2 * x) 1 (1 / 10 ^ 10) =
        newton 3 (fun x : α => x ^ 2 - 2) (fun x => 2 * x) (3 / 2) (1 / 10 ^ 10) ∧
    newton 3 (fun x : α => x ^ 2 - 2) (fun x => 2 * x) (3 / 2) (1 / 10 ^ 10) =
        newton 2 (fun x : α => x ^ 2 - 2) (fun x => 2 * x) (17 / 12) (1 / 10 ^ 10) ∧
    newton 2 (fun x : α => x ^ 2 - 2) (fun x => 2 * x) (17 / 12) (1 / 10 ^ 10) =
        newton 1 (fun x : α => x ^ 2 - 2) (fun x => 2 * x) (577 / 408) (1 / 10 ^ 10) ∧
    newton 1 (fun x : α => x ^ 2 - 2) (fun x => 2 * x) (577 / 408) (1 / 10 ^ 10) =
        newton 0 (fun x : α => x ^ 2 - 2) (fun x => 2 * x) (665857 / 470832) (1 / 10 ^ 10) ∧
    newton 0 (fun x : α => x ^ 2 - 2) (fun x => 2 * x) (665857 / 470832) (1 / 10 ^ 10) =
        some (665857 / 470832) := by
  refine ⟨?_, ?_, ?_, ?_, ?_⟩
  · rw [newton_step _ _ _ _ _ (by norm_num [lt_abs])]; norm_num
  · rw [newton_step _ _ _ _ _ (by norm_num [lt_abs])]; norm_num
  · rw [newton_step _ _ _ _ _ (by norm_num [lt_abs])]; norm_num
  · rw [newton_step _ _ _ _ _ (by norm_num [lt_abs])]; norm_num
  · rw [newton_exit _ _ _ _ _ (by norm_num [abs_le])]

/-- C10: for `f x = x^2 - 2`, `fprime x = 2 x`, guess `1` and tolerance
`10^-10`, in exact rational arithmetic `newton` returns after exactly four
updates (four suffice, three do not), the guesses being `1`, `3/2`, `17/12`,
`577/408`, `665857/470832`; the result `r = 665857/470832` satisfies
`|r^2 - 2| ≤ 10^-10` and `|r - sqrt 2| ≤ 10^-10`. -/
theorem newton_sqrt2_four_updates :
    newton 4 (fun x : ℚ => x ^ 2 - 2) (fun x => 2 * x) 1 (1 / 10 ^ 10) =
        some (665857 / 470832) ∧
    newton 3 (fun x : ℚ => x ^ 2 - 2) (fun x => 2 * x) 1 (1 / 10 ^ 10) = none ∧
    (newtonGuess (fun x : ℚ => x ^ 2 - 2) (fun x => 2 * x) 1 1 = 3 / 2 ∧
      newtonGuess (fun x : ℚ => x ^ 2 - 2) (fun x => 2 * x) 1 2 = 17 / 12 ∧
      newtonGuess (fun x : ℚ => x ^ 2 - 2) (fun x => 2 * x) 1 3 = 577 / 408 ∧
      newtonGuess (fun x : ℚ => x ^ 2 - 2) (fun x => 2 * x) 1 4 = 665857 / 470832) ∧
    |(665857 / 470832 : ℚ) ^ 2 - 2| ≤ 1 / 10 ^ 10 ∧
    |((665857 / 470832 : ℚ) : ℝ) - Real.sqrt 2| ≤ 1 / 10 ^ 10 := by
  obtain ⟨r1, r2, r3, r4, r5⟩ := @sqrt2_chain ℚ _
  have g1 : newtonGuess (fun x : ℚ => x ^ 2 - 2) (fun x => 2 * x) 1 1 = 3 / 2 := by
    norm_num [newtonGuess]
  have g2 : newtonGuess (fun x : ℚ => x ^ 2 - 2) (fun x => 2 * x) 1 2 = 17 / 12 := by
    rw [newtonGuess, g1]; norm_num
  have g3 : newtonGuess (fun x : ℚ => x ^ 2 - 2) (fun x => 2 * x) 1 3 = 577 / 408 := by
    rw [newtonGuess, g2]; norm_num
  have g4 : newtonGuess (fun x : ℚ => x ^ 2 - 2) (fun x => 2 * x) 1 4 = 665857 / 470832 := by
    rw [newtonGuess, g3]; norm_num
  refine ⟨by rw [r1, r2, r3, r4, r5], ?_, ⟨g1, g2, g3, g4⟩, by norm_num [abs_le], ?_⟩
  · rw [newton_step _ _ _ _ _ (by norm_num [lt_abs])]
    norm_num
    rw [newton_step _ _ _ _ _ (by norm_num [lt_abs])]
    norm_num
    rw [newton_step _ _ _ _ _ (by norm_num [lt_abs])]
    norm_num
    rw [newton_stuck _ _ _ _ (by norm_num [lt_abs])]
  · have h2 : (0 : ℝ) ≤ 2 := by norm_num
    have hlo : Real.sqrt 2 ≤ 665857 / 470832 := by
      rw [Real.sqrt_le_left (by norm_num)]
      norm_num
    have hhi : (665857 / 470832 - 1 / 10 ^ 10 : ℝ) ≤ Real.sqrt 2 := by
      apply Real.le_sqrt_of_sq_le
      norm_num
    rw [abs_le]
    push_cast
    constructor <;> linarith

/-! ## newton: the run as a whole -/

/-- One update of the guess moves the sequence of Newton iterates one place. -/
theorem newtonGuess_shift {α : Type} [Sub α] [Div α] (f fprime : α → α) (guess : α)
    (n : Nat) :
    newtonGuess f fprime guess (n + 1) =
      newtonGuess f fprime (guess - f guess / fprime guess) n := by
  induction n with
  | zero => rfl
  | succ n ih =>
    have unfold_succ : ∀ (g : α) (k : Nat), newtonGuess f fprime g (k + 1) =
        newtonGuess f fprime g k -
          f (newtonGuess f fprime g k) / fprime (newtonGuess f fprime g k) :=
      fun _ _ => rfl
    rw [unfold_succ guess (n + 1), ih, unfold_succ _ n]

/-- If the iterate `x_n` is the first that meets the tolerance, `newton`
returns it as soon as `n` updates are allowed. -/
theorem newton_returns_first {α : Type} [LinearOrderedField α] (f fprime : α → α)
    (tolerance : α) (n : Nat) :
    ∀ (guess : α) (fuel : Nat), n ≤ fuel →
      (∀ k, k < n → tolerance < |f (newtonGuess f fprime guess k)|) →
      |f (newtonGuess f fprime guess n)| ≤ tolerance →
      newton fuel f fprime guess tolerance = some (newtonGuess f fprime guess n) := by
  induction n with
  | zero =>
    intro guess fuel _ _ hn
    exact newton_exit fuel f fprime guess tolerance hn
  | succ n ih =>
    intro guess fuel hfuel hlt hn
    obtain ⟨fuel, rfl⟩ : ∃ m, fuel = m + 1 := ⟨fuel - 1, by omega⟩
    rw [newton_step fuel f fprime guess tolerance (hlt 0 (Nat.succ_pos n)),
      newtonGuess_shift]
    refine ih _ fuel (by omega) (fun k hk => ?_) (by rw [← newtonGuess_shift]; exact hn)
    rw [← newtonGuess_shift]
    exact hlt (k + 1) (by omega)

/-- While no iterate up to `x_fuel` meets the tolerance, `fuel` updates do not
let `newton` return. -/
theorem newton_none {α : Type} [LinearOrderedField α] (f fprime : α → α)
    (tolerance : α) (fuel : Nat) :
    ∀ guess : α, (∀ k, k ≤ fuel → tolerance < |f (newtonGuess f fprime guess k)|) →
      newton fuel f fprime guess tolerance = none := by
  induction fuel with
  | zero =>
    intro guess h
    exact newton_stuck f fprime guess tolerance (h 0 (Nat.le_refl 0))
  | succ fuel ih =>
    intro guess h
    rw [newton_step fuel f fprime guess tolerance (h 0 (Nat.zero_le _))]
    refine ih _ (fun k hk => ?_)
    rw [← newtonGuess_shift]
    exact h (k + 1) (by omega)

/-- A value returned by `newton` is the first Newton iterate that meets the
tolerance. -/
theorem newton_some_inv {α : Type} [LinearOrderedField α] (f fprime : α → α)
    (tolerance : α) (fuel : Nat) :
    ∀ guess r : α, newton fuel f fprime guess tolerance = some r →
      ∃ n, n ≤ fuel ∧ r = newtonGuess f fprime guess n ∧
        |f (newtonGuess f fprime guess n)| ≤ tolerance ∧
        ∀ k, k < n → tolerance < |f (newtonGuess f fprime guess k)| := by
  induction fuel with
  | zero =>
    intro guess r h
    by_cases hg : tolerance < |f guess|
    · rw [newton_stuck f fprime guess tolerance hg] at h; cases h
    · rw [newton_exit 0 f fprime guess tolerance (not_lt.mp hg)] at h
      cases h
      exact ⟨0, Nat.le_refl 0, rfl, not_lt.mp hg, fun k hk => absurd hk (Nat.not_lt_zero k)⟩
  | succ fuel ih =>
    intro guess r h
    by_cases hg : tolerance < |f guess|
    · rw [newton_step fuel f fprime guess tolerance hg] at h
      obtain ⟨n, hn, hr, hex, hlt⟩ := ih _ r h
      refine ⟨n + 1, by omega, by rw [newtonGuess_shift]; exact hr,
        by rw [newtonGuess_shift]; exact hex, fun k hk => ?_⟩
      cases k with
      | zero => exact hg
      | succ k => rw [newtonGuess_shift]; exact hlt k (by omega)
    · rw [newton_exit _ f fprime guess tolerance (not_lt.mp hg)] at h
      cases h
      exact ⟨0, Nat.zero_le _, rfl, not_lt.mp hg, fun k hk => absurd hk (Nat.not_lt_zero k)⟩

/-! ## newton in exact arithmetic: the first iterate within the tolerance -/

/-- In exact arithmetic (with the convention `x / 0 = 0` of a field), `newton`
terminates if and only if some Newton iterate `x_n` has
`|f(x_n)| ≤ tolerance`; a returned value is `x_n` for the least such `n`,
reached after exactly `n` updates; and `guess` is returned without any update
when `|f(guess)| ≤ tolerance`. -/
theorem newton_exact_first_iterate {α : Type} [LinearOrderedField α] (f fprime : α → α)
    (guess tolerance : α) :
    ((∃ fuel r, newton fuel f fprime guess tolerance = some r) ↔
      ∃ n, |f (newtonGuess f fprime guess n)| ≤ tolerance) ∧
    (∀ fuel r, newton fuel f fprime guess tolerance = some r →
      ∃ n, n ≤ fuel ∧ r = newtonGuess f fprime guess n ∧
        |f (newtonGuess f fprime guess n)| ≤ tolerance ∧
        (∀ k, k < n → tolerance < |f (newtonGuess f fprime guess k)|) ∧
        (∀ less, less < n → newton less f fprime guess tolerance = none) ∧
        (∀ more, n ≤ more → newton more f fprime guess tolerance = some r)) ∧
    (|f guess| ≤ tolerance → newton 0 f fprime guess tolerance = some guess) := by
  have inv : ∀ fuel r, newton fuel f fprime guess tolerance = some r →
      ∃ n, n ≤ fuel ∧ r = newtonGuess f fprime guess n ∧
        |f (newtonGuess f fprime guess n)| ≤ tolerance ∧
        (∀ k, k < n → tolerance < |f (newtonGuess f fprime guess k)|) ∧
        (∀ less, less < n → newton less f fprime guess tolerance = none) ∧
        (∀ more, n ≤ more → newton more f fprime guess tolerance = some r) := by
    intro fuel r h
    obtain ⟨n, hn, hr, hex, hlt⟩ := newton_some_inv f fprime tolerance fuel guess r h
    refine ⟨n, hn, hr, hex, hlt, fun less hless => ?_, fun more hmore => ?_⟩
    · exact newton_none f fprime tolerance less guess (fun k hk => hlt k (by omega))
    · rw [hr]
      exact newton_returns_first f fprime tolerance n guess more hmore hlt hex
  refine ⟨⟨?_, ?_⟩, inv, newton_exit 0 f fprime guess tolerance⟩
  · rintro ⟨fuel, r, h⟩
    obtain ⟨n, -, -, hex, -⟩ := inv fuel r h
    exact ⟨n, hex⟩
  · rintro ⟨n, hn⟩
    classical
    have hex : ∃ n, |f (newtonGuess f fprime guess n)| ≤ tolerance := ⟨n, hn⟩
    refine ⟨Nat.find hex, _, newton_returns_first f fprime tolerance (Nat.find hex) guess _
      (Nat.le_refl _) (fun k hk => ?_) (Nat.find_spec hex)⟩
    exact not_le.mp (Nat.find_min hex hk)

/-! ## newton in exact arithmetic: a tolerance that is not positive -/

/-- In exact arithmetic, with `tolerance < 0` no number of updates lets
`newton` return and no iterate has `|f(x_n)| ≤ tolerance`; with
`tolerance = 0` a returned value is an exact root of `f`. -/
theorem newton_exact_nonpositive_tolerance {α : Type} [LinearOrderedField α] (f fprime : α → α)
    (guess tolerance : α) :
    (tolerance < 0 →
      (∀ fuel, newton fuel f fprime guess tolerance = none) ∧
      ∀ n, ¬ |f (newtonGuess f fprime guess n)| ≤ tolerance) ∧
    (tolerance = 0 → ∀ fuel r, newton fuel f fprime guess tolerance = some r → f r = 0) := by
  constructor
  · intro hneg
    have hall : ∀ x : α, tolerance < |f x| := fun x => lt_of_lt_of_le hneg (abs_nonneg _)
    exact ⟨fun fuel => newton_none f fprime tolerance fuel guess (fun k _ => hall _),
      fun n => not_le.mpr (hall _)⟩
  · intro hzero fuel r h
    obtain ⟨n, -, hr, hex, -⟩ := newton_some_inv f fprime tolerance fuel guess r h
    rw [hzero] at hex
    rw [hr]
    exact abs_eq_zero.mp (le_antisymm hex (abs_nonneg _))

/-! ## C20 -/

/-- C20: on a linear function `newton` reaches the exact root in at most one
update. For `f x = a * x + b` with `a ≠ 0`, `fprime x = a`, every guess and
every `tolerance ≥ 0`, one update suffices for the call to return; if
`|a * guess + b| > tolerance` it returns exactly `-b / a` (and no update does
not suffice), otherwise it returns `guess` without any update. -/
theorem newton_linear {α : Type} [LinearOrderedField α] (a b guess tolerance : α)
    (ha : a ≠ 0) (htol : 0 ≤ tolerance) :
    (∃ r, newton 1 (fun x => a * x + b) (fun _ => a) guess tolerance = some r) ∧
    (tolerance < |a * guess + b| →
      newton 1 (fun x => a * x + b) (fun _ => a) guess tolerance = some (-b / a) ∧
      newton 0 (fun x => a * x + b) (fun _ => a) guess tolerance = none) ∧
    (|a * guess + b| ≤ tolerance →
      newton 0 (fun x => a * x + b) (fun _ => a) guess tolerance = some guess) := by
  have upd : guess - (a * guess + b) / a = -b / a := by field_simp; ring
  have root : |a * (-b / a) + b| ≤ tolerance := by
    have : a * (-b / a) + b = 0 := by field_simp; ring
    rw [this, abs_zero]; exact htol
  have far : tolerance < |a * guess + b| →
      newton 1 (fun x => a * x + b) (fun _ => a) guess tolerance = some (-b / a) := by
    intro h
    rw [newton_step 0 (fun x => a * x + b) (fun _ => a) guess tolerance h]
    show newton 0 (fun x => a * x + b) (fun _ => a) (guess - (a * guess + b) / a) tolerance = _
    rw [upd]
    exact newton_exit 0 (fun x => a * x + b) (fun _ => a) (-b / a) tolerance root
  refine ⟨?_, fun h => ⟨far h, newton_stuck (fun x => a * x + b) (fun _ => a) guess tolerance h⟩,
    fun h => newton_exit 0 (fun x => a * x + b) (fun _ => a) guess tolerance h⟩
  by_cases h : tolerance < |a * guess + b|
  · exact ⟨_, far h⟩
  · exact ⟨_, newton_exit 1 (fun x => a * x + b) (fun _ => a) guess tolerance (not_lt.mp h)⟩

/-- C20 at `f x = 3 * x - 6`, guess `0`, tolerance `1/2`: one update, to the
root `2 = -(-6) / 3`; no update does not suffice. -/
theorem newton_linear_witness :
    newton 1 (fun x : ℚ => 3 * x + -6) (fun _ => 3) 0 (1 / 2) = some (- -6 / 3) ∧
    newton 0 (fun x : ℚ => 3 * x + -6) (fun _ => 3) 0 (1 / 2) = none :=
  (newton_linear (3 : ℚ) (-6) 0 (1 / 2) (by norm_num) (by norm_num)).2.1
    (by norm_num [lt_abs])

/-! ## C11 -/

theorem cube_iterate {α : Type} [LinearOrderedField α] (n : Nat) :
    newtonGuess (fun x : α => x ^ 3) (fun x => 3 * x ^ 2) 1 n = (2 / 3) ^ n := by
  induction n with
  | zero => simp [newtonGuess]
  | succ n ih =>
    have unfold_succ : newtonGuess (fun x : α => x ^ 3) (fun x => 3 * x ^ 2) 1 (n + 1) =
        newtonGuess (fun x : α => x ^ 3) (fun x => 3 * x ^ 2) 1 n -
          (newtonGuess (fun x : α => x ^ 3) (fun x => 3 * x ^ 2) 1 n) ^ 3 /
            (3 * (newtonGuess (fun x : α => x ^ 3) (fun x => 3 * x ^ 2) 1 n) ^ 2) := rfl
    rw [unfold_succ, ih]
    have hpos : ((2 : α) / 3) ^ n ≠ 0 := pow_ne_zero n (by norm_num)
    field_simp
    ring

theorem cube_residual {α : Type} [LinearOrderedField α] (n : Nat) :
    |(((2 : α) / 3) ^ n) ^ 3| = (8 / 27) ^ n := by
  rw [abs_of_nonneg (by positivity), ← pow_mul, mul_comm, pow_mul]
  norm_num

/-- C11: for `f x = x^3`, `fprime x = 3 x^2` and guess `1`, the `n`-th guess
of `newton` is exactly `(2/3)^n` in exact arithmetic, and for every
`tolerance > 0` the call terminates: with `n` the least number such that
`(8/27)^n ≤ tolerance`, it returns `(2/3)^n` after exactly `n` updates; the
returned value is not zero and its cube is within the tolerance. -/
theorem newton_cube_linear_convergence {α : Type} [LinearOrderedField α] [Archimedean α]
    (tolerance : α) (htol : 0 < tolerance) :
    (∀ n, newtonGuess (fun x : α => x ^ 3) (fun x => 3 * x ^ 2) 1 n = (2 / 3) ^ n) ∧
    ∃ n, (8 / 27 : α) ^ n ≤ tolerance ∧ (∀ k, k < n → tolerance < (8 / 27 : α) ^ k) ∧
      newton n (fun x : α => x ^ 3) (fun x => 3 * x ^ 2) 1 tolerance = some ((2 / 3) ^ n) ∧
      (∀ less, less < n →
        newton less (fun x : α => x ^ 3) (fun x => 3 * x ^ 2) 1 tolerance = none) ∧
      ((2 / 3 : α) ^ n ≠ 0) ∧ |(((2 : α) / 3) ^ n) ^ 3| ≤ tolerance := by
  refine ⟨cube_iterate, ?_⟩
  classical
  have hex : ∃ n, (8 / 27 : α) ^ n ≤ tolerance := by
    obtain ⟨n, hn⟩ := exists_pow_lt_of_lt_one htol (show (8 / 27 : α) < 1 by norm_num)
    exact ⟨n, le_of_lt hn⟩
  have hres : ∀ k, |(fun x : α => x ^ 3)
      (newtonGuess (fun x : α => x ^ 3) (fun x => 3 * x ^ 2) 1 k)| = (8 / 27) ^ k := by
    intro k
    rw [cube_iterate]
    exact cube_residual k
  have hmin : ∀ k, k < Nat.find hex → tolerance < (8 / 27 : α) ^ k :=
    fun k hk => not_le.mp (Nat.find_min hex hk)
  refine ⟨Nat.find hex, Nat.find_spec hex, hmin, ?_, fun less hless => ?_,
    pow_ne_zero _ (by norm_num), by rw [cube_residual]; exact Nat.find_spec hex⟩
  · rw [← cube_iterate (Nat.find hex)]
    refine newton_returns_first _ _ tolerance (Nat.find hex) 1 _ (Nat.le_refl _)
      (fun k hk => ?_) ?_
    · rw [hres]; exact hmin k hk
    · rw [hres]; exact Nat.find_spec hex
  · refine newton_none _ _ tolerance less 1 (fun k hk => ?_)
    rw [hres]
    exact hmin k (by omega)

/-- C11 at tolerance `1/2` over the rationals. -/
theorem newton_cube_linear_convergence_witness :
    (∀ n, newtonGuess (fun x : ℚ => x ^ 3) (fun x => 3 * x ^ 2) 1 n = (2 / 3) ^ n) ∧
    ∃ n, (8 / 27 : ℚ) ^ n ≤ 1 / 2 ∧ (∀ k, k < n → 1 / 2 < (8 / 27 : ℚ) ^ k) ∧
      newton n (fun x : ℚ => x ^ 3) (fun x => 3 * x ^ 2) 1 (1 / 2) = some ((2 / 3) ^ n) ∧
      (∀ less, less < n →
        newton less (fun x : ℚ => x ^ 3) (fun x => 3 * x ^ 2) 1 (1 / 2) = none) ∧
      ((2 / 3 : ℚ) ^ n ≠ 0) ∧ |(((2 : ℚ) / 3) ^ n) ^ 3| ≤ 1 / 2 :=
  newton_cube_linear_convergence (1 / 2 : ℚ) (by norm_num)

/-! ## rk4 in exact arithmetic -/

theorem rk4_unfold {α : Type} [Add α] [Mul α] [Div α] [OfNat α 2] [OfNat α 6]
    (t0 u0 dt : α) (f : α → α → α) :
    rk4 t0 u0 dt f =
      u0 + dt * (f t0 u0 + 2 * f (t0 + dt / 2) (u0 + dt * f t0 u0 / 2)
        + 2 * f (t0 + dt / 2) (u0 + dt * f (t0 + dt / 2) (u0 + dt * f t0 u0 / 2) / 2)
        + f (t0 + dt) (u0 + dt * f (t0 + dt / 2)
            (u0 + dt * f (t0 + dt / 2) (u0 + dt * f t0 u0 / 2) / 2))) / 6 :=
  rfl

theorem rk4_growth {α : Type} [Field α] [CharZero α] (t0 u0 dt : α) :
    rk4 t0 u0 dt (fun _ u => u) =
      u0 * (1 + dt + dt ^ 2 / 2 + dt ^ 3 / 6 + dt ^ 4 / 24) := by
  rw [rk4_unfold]
  field_simp
  ring

/-! ## C13 -/

/-- C13: for `f t u = u`, one `rk4` step multiplies the state by the degree-4
Taylor polynomial of `exp`: in exact arithmetic (a field of characteristic
zero) `rk4 t0 u0 dt f = u0 * (1 + dt + dt^2/2 + dt^3/6 + dt^4/24)`; for
`t0 = 0`, `u0 = 1`, `dt = 1/10` the result is `265241/240000`, which differs
from `exp (1/10)` by less than `10^-7`; and for `|dt| ≤ 1` the step from
`u0 = 1` differs from `exp dt` by at most `|dt|^5 / 100`. -/
theorem rk4_exponential_growth {α : Type} [Field α] [CharZero α] (t0 u0 dt : α) (h : ℝ)
    (hh : |h| ≤ 1) :
    rk4 t0 u0 dt (fun _ u => u) = u0 * (1 + dt + dt ^ 2 / 2 + dt ^ 3 / 6 + dt ^ 4 / 24) ∧
    rk4 (0 : α) 1 (1 / 10) (fun _ u => u) = 265241 / 240000 ∧
    |rk4 (0 : ℝ) 1 (1 / 10) (fun _ u => u) - Real.exp (1 / 10)| < 1 / 10 ^ 7 ∧
    |rk4 (0 : ℝ) 1 h (fun _ u => u) - Real.exp h| ≤ |h| ^ 5 / 100 := by
  refine ⟨rk4_growth t0 u0 dt, by rw [rk4_growth]; norm_num, ?_, ?_⟩
  · have hb := Real.exp_bound (show |(1 / 10 : ℝ)| ≤ 1 by rw [abs_le]; norm_num)
      (show 0 < 6 by norm_num)
    rw [rk4_growth]
    simp only [Finset.sum_range_succ, Finset.sum_range_zero, Nat.factorial] at hb
    rw [abs_le] at hb
    rw [abs_lt]
    have e1 : |(1 / 10 : ℝ)| = 1 / 10 := abs_of_nonneg (by norm_num)
    rw [e1] at hb
    norm_num at hb
    constructor <;> norm_num <;> linarith [hb.1, hb.2]
  · have hb := Real.exp_bound hh (show 0 < 5 by norm_num)
    rw [rk4_growth]
    simp only [Finset.sum_range_succ, Finset.sum_range_zero, Nat.factorial] at hb
    rw [abs_sub_comm]
    refine le_trans (le_of_eq ?_) (le_trans hb (le_of_eq ?_))
    · congr 1
      norm_num
    · norm_num
      ring

/-- C13 at a step of length `1/2` for the bound against `exp`. -/
theorem rk4_exponential_growth_witness :
    |(1 / 2 : ℝ)| ≤ 1 ∧
    rk4 (0 : ℚ) 1 (1 / 10) (fun _ u => u) = 265241 / 240000 ∧
    |rk4 (0 : ℝ) 1 (1 / 2) (fun _ u => u) - Real.exp (1 / 2)| ≤ |(1 / 2 : ℝ)| ^ 5 / 100 :=
  have hh : |(1 / 2 : ℝ)| ≤ 1 := by rw [abs_le]; norm_num
  ⟨hh, (rk4_exponential_growth (0 : ℚ) 1 (1 / 10) (1 / 2) hh).2.1,
    (rk4_exponential_growth (0 : ℚ) 1 (1 / 10) (1 / 2) hh).2.2.2⟩

/-! ## C18 -/

/-- C18: when the derivative does not depend on the state, one `rk4` step is
Simpson's rule: for `f t u = g t`, in exact arithmetic,
`rk4 t0 u0 dt f = u0 + dt * (g t0 + 4 * g (t0 + dt/2) + g (t0 + dt)) / 6`;
in particular for a constant derivative `c` the result is `u0 + dt * c`. -/
theorem rk4_simpson {α : Type} [Field α] [CharZero α] (g : α → α) (t0 u0 dt c : α) :
    rk4 t0 u0 dt (fun t _ => g t) =
      u0 + dt * (g t0 + 4 * g (t0 + dt / 2) + g (t0 + dt)) / 6 ∧
    rk4 t0 u0 dt (fun _ _ => c) = u0 + dt * c := by
  constructor
  · rw [rk4_unfold]
    ring
  · rw [rk4_unfold]
    field_simp
    ring

/-- C18 at `g t = t^2`, `t0 = 0`, `u0 = 1`, `dt = 1/10` and at the constant
derivative `3`, over the rationals. -/
theorem rk4_simpson_witness :
    rk4 (0 : ℚ) 1 (1 / 10) (fun t _ => (fun x : ℚ => x ^ 2) t) =
      1 + 1 / 10 * ((fun x : ℚ => x ^ 2) 0 + 4 * (fun x : ℚ => x ^ 2) (0 + 1 / 10 / 2)
        + (fun x : ℚ => x ^ 2) (0 + 1 / 10)) / 6 ∧
    rk4 (0 : ℚ) 1 (1 / 10) (fun _ _ => 3) = 1 + 1 / 10 * 3 :=
  rk4_simpson (fun x : ℚ => x ^ 2) 0 1 (1 / 10) 3

/-! ## rk4vec for a callback that writes only its output buffer -/

/-- The closed form of `rk4vec` when the callback leaves `u` alone and the
contents it writes into scratch block `n` are `G n t u`. -/
theorem rk4vec_eq_fill_blocks {α : Type} [Zero α] [Add α] [Mul α] [Div α] [OfNat α 2]
    [OfNat α 6] (junk : Nat → Nat → α) (t0 : α) (m : Nat) (u0 : List α) (dt : α)
    (f : α → Nat → List α → List α → List α × List α) (G : Nat → α → List α → List α)
    (out : List α) (hcall : ∀ n t u, f t m u (malloc (junk n) m) = (u, G n t u))
    (hlen : ∀ n t u, m ≤ (G n t u).length) (hu : m ≤ u0.length) (ho : m ≤ out.length) :
    rk4vec junk t0 m u0 dt f out =
      some (u0, fillRow (fun i => cell u0 i + dt *
        (cell (G 0 t0 u0) i
          + 2 * cell (G 2 (t0 + dt / 2) (halfStep u0 (G 0 t0 u0) dt m)) i
          + 2 * cell (G 4 (t0 + dt / 2)
              (halfStep u0 (G 2 (t0 + dt / 2) (halfStep u0 (G 0 t0 u0) dt m)) dt m)) i
          + cell (G 6 (t0 + dt) (fullStep u0 (G 4 (t0 + dt / 2)
              (halfStep u0 (G 2 (t0 + dt / 2) (halfStep u0 (G 0 t0 u0) dt m)) dt m))
                dt m)) i) / 6)
        0 m out) := by
  have hhalf : ∀ (k : List α) (n : Nat), m ≤ k.length →
      forLoop m (fun i s => do
        let a ← u0[i]?
        let b ← k[i]?
        store s i (a + dt * b / 2)) (malloc (junk n) m) = some (halfStep u0 k dt m) := by
    intro k n hk
    rw [stage_loop (fun a b => a + dt * b / 2) u0 k _ m hu hk (le_of_eq (malloc_length _ _).symm),
      fillRow_all _ m _ (malloc_length _ _)]
    rfl
  have hfull : ∀ (k : List α) (n : Nat), m ≤ k.length →
      forLoop m (fun i s => do
        let a ← u0[i]?
        let b ← k[i]?
        store s i (a + dt * b)) (malloc (junk n) m) = some (fullStep u0 k dt m) := by
    intro k n hk
    rw [stage_loop (fun a b => a + dt * b) u0 k _ m hu hk (le_of_eq (malloc_length _ _).symm),
      fillRow_all _ m _ (malloc_length _ _)]
    rfl
  have hcomb := combine_loop (fun a b0 b1 b2 b3 => a + dt * (b0 + 2 * b1 + 2 * b2 + b3) / 6)
    u0 (G 0 t0 u0) (G 2 (t0 + dt / 2) (halfStep u0 (G 0 t0 u0) dt m))
    (G 4 (t0 + dt / 2) (halfStep u0 (G 2 (t0 + dt / 2) (halfStep u0 (G 0 t0 u0) dt m)) dt m))
    (G 6 (t0 + dt) (fullStep u0 (G 4 (t0 + dt / 2)
      (halfStep u0 (G 2 (t0 + dt / 2) (halfStep u0 (G 0 t0 u0) dt m)) dt m)) dt m))
    out m hu (hlen _ _ _) (hlen _ _ _) (hlen _ _ _) (hlen _ _ _) ho
  simp only [Option.bind_eq_bind] at hhalf hfull hcomb
  unfold rk4vec
  simp only [hcall, Option.bind_eq_bind, Option.pure_def]
  rw [hhalf _ _ (hlen _ _ _), Option.some_bind, hhalf _ _ (hlen _ _ _), Option.some_bind,
    hfull _ _ (hlen _ _ _), Option.some_bind, hcomb, Option.some_bind]

theorem cell_halfStep {α : Type} [Zero α] [Add α] [Mul α] [Div α] [OfNat α 2]
    (u0 k : List α) (dt : α) (m i : Nat) (hi : i < m) :
    cell (halfStep u0 k dt m) i = cell u0 i + dt * cell k i / 2 :=
  cell_map_range _ m i hi

theorem cell_fullStep {α : Type} [Zero α] [Add α] [Mul α]
    (u0 k : List α) (dt : α) (m i : Nat) (hi : i < m) :
    cell (fullStep u0 k dt m) i = cell u0 i + dt * cell k i :=
  cell_map_range _ m i hi

theorem length_halfStep {α : Type} [Zero α] [Add α] [Mul α] [Div α] [OfNat α 2]
    (u0 k : List α) (dt : α) (m : Nat) : (halfStep u0 k dt m).length = m := by
  simp [halfStep]

theorem length_fullStep {α : Type} [Zero α] [Add α] [Mul α]
    (u0 k : List α) (dt : α) (m : Nat) : (fullStep u0 k dt m).length = m := by
  simp [fullStep]

theorem scalarCallback_computes {α : Type} [Zero α] (g : α → α → α) :
    Computes (scalarCallback g) (fun t u => [g t (cell u 0)]) 1 := by
  intro t u b hb
  match b, hb with
  | [x], _ => exact ⟨rfl, rfl⟩

/-! ## C17 -/

/-- C17: `rk4vec` agrees with the scalar `rk4` on decoupled systems. If the
callback computes a vector derivative `G` with `G(t, u)[i] = g_i(t, u[i])` for
every `i < m`, then the call returns and every `i < m` has
`out[i] = rk4 t0 u0[i] dt g_i`; in particular for `m = 1`, with the callback
`uout[0] = g(t, u[0])`, the vector stepper writes the value the scalar stepper
returns. No law of arithmetic is assumed. -/
theorem rk4vec_decoupled {α : Type} [Zero α] [Add α] [Mul α] [Div α] [OfNat α 2]
    [OfNat α 6] (junk : Nat → Nat → α) (t0 : α) (m : Nat) (u0 : List α) (dt : α)
    (f : α → Nat → List α → List α → List α × List α) (G : α → List α → List α)
    (g : Nat → α → α → α) (g1 : α → α → α) (x y : α) (out : List α)
    (hf : Computes f G m)
    (hg : ∀ t u i, i < m → m ≤ u.length → cell (G t u) i = g i t (cell u i))
    (hu : u0.length = m) (ho : out.length = m) :
    (∃ outn, rk4vec junk t0 m u0 dt f out = some (u0, outn) ∧
      ∀ i, i < m → outn[i]? = some (rk4 t0 (cell u0 i) dt (g i))) ∧
    rk4vec junk t0 1 [x] dt (scalarCallback g1) [y] = some ([x], [rk4 t0 x dt g1]) := by
  constructor
  · refine ⟨_, rk4vec_eq_fill junk t0 m u0 dt f G out hf (by omega) (by omega), ?_⟩
    intro i hi
    have k0c : cell (G t0 u0) i = g i t0 (cell u0 i) := hg _ _ i hi (by omega)
    have k1c : cell (G (t0 + dt / 2) (halfStep u0 (G t0 u0) dt m)) i =
        g i (t0 + dt / 2) (cell u0 i + dt * g i t0 (cell u0 i) / 2) := by
      rw [hg _ _ i hi (le_of_eq (length_halfStep _ _ _ _).symm), cell_halfStep _ _ _ _ _ hi, k0c]
    have k2c : cell (G (t0 + dt / 2)
          (halfStep u0 (G (t0 + dt / 2) (halfStep u0 (G t0 u0) dt m)) dt m)) i =
        g i (t0 + dt / 2) (cell u0 i + dt *
          g i (t0 + dt / 2) (cell u0 i + dt * g i t0 (cell u0 i) / 2) / 2) := by
      rw [hg _ _ i hi (le_of_eq (length_halfStep _ _ _ _).symm), cell_halfStep _ _ _ _ _ hi, k1c]
    have k3c : cell (G (t0 + dt) (fullStep u0 (G (t0 + dt / 2)
          (halfStep u0 (G (t0 + dt / 2) (halfStep u0 (G t0 u0) dt m)) dt m)) dt m)) i =
        g i (t0 + dt) (cell u0 i + dt * g i (t0 + dt / 2) (cell u0 i + dt *
          g i (t0 + dt / 2) (cell u0 i + dt * g i t0 (cell u0 i) / 2) / 2)) := by
      rw [hg _ _ i hi (le_of_eq (length_fullStep _ _ _ _).symm), cell_fullStep _ _ _ _ _ hi, k2c]
    rw [fillRow_zero_get _ m out i hi (by omega), rk4_unfold, k3c, k2c, k1c, k0c]
  · rw [rk4vec_eq_fill junk t0 1 [x] dt (scalarCallback g1) _ [y] (scalarCallback_computes g1)
      (by simp) (by simp)]
    simp [fillRow, List.range_succ, cell, halfStep, fullStep, rk4_unfold]

/-- C17 at `m = 1`, `g t u = u`, `u0 = [1]`, `dt = 1/10` over the rationals. -/
theorem rk4vec_decoupled_witness :
    (∃ outn, rk4vec (fun _ _ => (7 : ℚ)) 0 1 [1] (1 / 10) (scalarCallback (fun _ u => u)) [9] =
        some ([1], outn) ∧
      ∀ i, i < 1 → outn[i]? = some (rk4 (0 : ℚ) (cell [1] i) (1 / 10) (fun _ u => u))) ∧
    rk4vec (fun _ _ => (7 : ℚ)) 0 1 [1] (1 / 10) (scalarCallback (fun _ u => u)) [9] =
      some ([1], [rk4 (0 : ℚ) 1 (1 / 10) (fun _ u => u)]) :=
  rk4vec_decoupled (fun _ _ => (7 : ℚ)) 0 1 [1] (1 / 10) (scalarCallback (fun _ u => u))
    (fun t u => [(fun _ u => u) t (cell u 0)]) (fun _ _ u => u) (fun _ u => u) 1 9 [9]
    (scalarCallback_computes (fun _ u => u))
    (fun t u i hi _ => by
      have h0 : i = 0 := by omega
      subst h0
      rfl)
    rfl rfl

/-! ## C14 -/

/-- C14: for the harmonic oscillator `F(t,u) = [u[1], -u[0]]` with `m = 2`, in
exact arithmetic one `rk4vec` step returns with
`out[0]^2 + out[1]^2 = (1 - dt^6/72 + dt^8/576) * (u0[0]^2 + u0[1]^2)`, for
every `t0`, `dt` and `u0`; so for `u0 = [1, 0]` and `|dt| ≤ 1` the new value
lies between `1 - dt^6/72` and `1`. -/
theorem rk4vec_oscillator_energy {α : Type} [LinearOrderedField α]
    (junk : Nat → Nat → α) (t0 dt : α) (u0 out : List α)
    (hu : u0.length = 2) (ho : out.length = 2) :
    ∃ outn, rk4vec junk t0 2 u0 dt oscillator out = some (u0, outn) ∧
      cell outn 0 ^ 2 + cell outn 1 ^ 2 =
        (1 - dt ^ 6 / 72 + dt ^ 8 / 576) * (cell u0 0 ^ 2 + cell u0 1 ^ 2) ∧
      (u0 = [1, 0] → |dt| ≤ 1 →
        1 - dt ^ 6 / 72 ≤ cell outn 0 ^ 2 + cell outn 1 ^ 2 ∧
        cell outn 0 ^ 2 + cell outn 1 ^ 2 ≤ 1) := by
  refine ⟨_, rk4vec_eq_fill junk t0 2 u0 dt oscillator oscillatorField out
    oscillator_computes (by omega) (by omega), ?_⟩
  have energy : ∀ a b : α,
      cell (fillRow (fun i => cell [a, b] i + dt *
        (cell (oscillatorField t0 [a, b]) i
          + 2 * cell (oscillatorField (t0 + dt / 2)
              (halfStep [a, b] (oscillatorField t0 [a, b]) dt 2)) i
          + 2 * cell (oscillatorField (t0 + dt / 2)
              (halfStep [a, b] (oscillatorField (t0 + dt / 2)
                (halfStep [a, b] (oscillatorField t0 [a, b]) dt 2)) dt 2)) i
          + cell (oscillatorField (t0 + dt) (fullStep [a, b] (oscillatorField (t0 + dt / 2)
              (halfStep [a, b] (oscillatorField (t0 + dt / 2)
                (halfStep [a, b] (oscillatorField t0 [a, b]) dt 2)) dt 2)) dt 2)) i) / 6)
        0 2 out) 0 ^ 2 +
      cell (fillRow (fun i => cell [a, b] i + dt *
        (cell (oscillatorField t0 [a, b]) i
          + 2 * cell (oscillatorField (t0 + dt / 2)
              (halfStep [a, b] (oscillatorField t0 [a, b]) dt 2)) i
          + 2 * cell (oscillatorField (t0 + dt / 2)
              (halfStep [a, b] (oscillatorField (t0 + dt / 2)
                (halfStep [a, b] (oscillatorField t0 [a, b]) dt 2)) dt 2)) i
          + cell (oscillatorField (t0 + dt) (fullStep [a, b] (oscillatorField (t0 + dt / 2)
              (halfStep [a, b] (oscillatorField (t0 + dt / 2)
                (halfStep [a, b] (oscillatorField t0 [a, b]) dt 2)) dt 2)) dt 2)) i) / 6)
        0 2 out) 1 ^ 2 =
      (1 - dt ^ 6 / 72 + dt ^ 8 / 576) * (a ^ 2 + b ^ 2) := by
    intro a b
    rw [cell_of_get _ 0 _ (fillRow_zero_get _ 2 out 0 (by omega) (by omega)),
      cell_of_get _ 1 _ (fillRow_zero_get _ 2 out 1 (by omega) (by omega))]
    simp only [cell, halfStep, fullStep, oscillatorField, List.range_succ, List.range_zero,
      List.nil_append, List.map_cons, List.map_nil, List.cons_append, List.getD_cons_zero,
      List.getD_cons_succ]
    field_simp
    ring
  match u0, hu with
  | [a, b], _ =>
    refine ⟨by simpa [cell] using energy a b, ?_⟩
    intro h01 hdt
    have ha : a = 1 := by simpa using congrArg (fun l => cell l 0) h01
    have hb : b = 0 := by simpa using congrArg (fun l => cell l 1) h01
    subst ha hb
    rw [energy 1 0]
    have h2 : dt ^ 2 ≤ 1 := by
      have := abs_le.mp hdt
      nlinarith [this.1, this.2]
    have h6 : 0 ≤ dt ^ 6 := by positivity
    have h8 : dt ^ 8 ≤ dt ^ 6 := by
      have : dt ^ 8 = dt ^ 6 * dt ^ 2 := by ring
      rw [this]
      exact mul_le_of_le_one_right h6 h2
    have h8nn : 0 ≤ dt ^ 8 := by positivity
    constructor
    · norm_num
      linarith
    · norm_num
      linarith

/-- C14 from `u0 = [1, 0]` with `dt = 1/10` over the rationals. -/
theorem rk4vec_oscillator_energy_witness :
    ∃ outn, rk4vec (fun _ _ => (7 : ℚ)) 0 2 [1, 0] (1 / 10) oscillator [9, 9] =
        some ([1, 0], outn) ∧
      cell outn 0 ^ 2 + cell outn 1 ^ 2 =
        (1 - (1 / 10 : ℚ) ^ 6 / 72 + (1 / 10) ^ 8 / 576) *
          (cell [1, 0] 0 ^ 2 + cell [1, 0] 1 ^ 2) ∧
      1 - (1 / 10 : ℚ) ^ 6 / 72 ≤ cell outn 0 ^ 2 + cell outn 1 ^ 2 ∧
      cell outn 0 ^ 2 + cell outn 1 ^ 2 ≤ 1 :=
  match rk4vec_oscillator_energy (fun _ _ => (7 : ℚ)) 0 (1 / 10) [1, 0] [9, 9] rfl rfl with
  | ⟨outn, hrun, henergy, hrange⟩ =>
    ⟨outn, hrun, henergy, hrange rfl (by rw [abs_le]; norm_num)⟩

/-! ## C19 -/

theorem writesOutput_blocks {α : Type} (junk : Nat → Nat → α) (m : Nat)
    (f : α → Nat → List α → List α → List α × List α) (hf : WritesOutput f m) :
    (∀ n t u, f t m u (malloc (junk n) m) = (u, (f t m u (malloc (junk n) m)).2)) ∧
    ∀ n t u, m ≤ (f t m u (malloc (junk n) m)).2.length := by
  constructor
  · intro n t u
    exact Prod.ext (hf t u _ (malloc_length _ _)).1 rfl
  · intro n t u
    exact le_of_eq (hf t u _ (malloc_length _ _)).2.symm

/-- C19: a zero-length step is the identity in exact arithmetic. For every
`t0`, `u0` and `f`, `rk4 t0 u0 0 f = u0`; and for every `m`, `u0` and callback
that writes only into its output buffer, `rk4vec` with `dt = 0` returns with
`out[i] = u0[i]` for every `i < m`. -/
theorem zero_step_identity {α : Type} [Field α] (junk : Nat → Nat → α) (t0 u0 : α)
    (f : α → α → α) (m : Nat) (v0 out : List α)
    (F : α → Nat → List α → List α → List α × List α)
    (hF : WritesOutput F m) (hv : v0.length = m) (ho : out.length = m) :
    rk4 t0 u0 0 f = u0 ∧
    ∃ outn, rk4vec junk t0 m v0 0 F out = some (v0, outn) ∧
      ∀ i, i < m → outn[i]? = v0[i]? := by
  constructor
  · rw [rk4_unfold]
    simp
  · obtain ⟨hcall, hlen⟩ := writesOutput_blocks junk m F hF
    refine ⟨_, rk4vec_eq_fill_blocks junk t0 m v0 0 F
      (fun n t u => (F t m u (malloc (junk n) m)).2) out hcall hlen (by omega) (by omega), ?_⟩
    intro i hi
    rw [fillRow_zero_get _ m out i hi (by omega), get_cell v0 i (by omega)]
    simp

/-- C19 at the harmonic oscillator from `[1, 0]` and the scalar derivative
`f t u = u` from `5`. -/
theorem zero_step_identity_witness :
    WritesOutput (oscillator : ℚ → Nat → List ℚ → List ℚ → List ℚ × List ℚ) 2 ∧
    rk4 (0 : ℚ) 5 0 (fun _ u => u) = 5 ∧
    ∃ outn, rk4vec (fun _ _ => (7 : ℚ)) 0 2 [1, 0] 0 oscillator [9, 9] = some ([1, 0], outn) ∧
      ∀ i, i < 2 → outn[i]? = ([1, 0] : List ℚ)[i]? :=
  have hw : WritesOutput (oscillator : ℚ → Nat → List ℚ → List ℚ → List ℚ × List ℚ) 2 :=
    fun _ _ b hb => ⟨rfl, by simp [oscillator, hb]⟩
  ⟨hw, zero_step_identity (fun _ _ => (7 : ℚ)) 0 5 (fun _ u => u) 2 [1, 0] [9, 9] oscillator
    hw rfl rfl⟩

/-! ## mat_mult: what a call leaves alone -/

/-- Two loops whose bodies correspond along a map of states correspond. -/
theorem forLoop_map {σ τ : Type} (φ : σ → τ) (body1 : Nat → σ → Option σ)
    (body2 : Nat → τ → Option τ) (h : ∀ i s, body2 i (φ s) = (body1 i s).map φ)
    (n : Nat) (s : σ) : forLoop n body2 (φ s) = (forLoop n body1 s).map φ := by
  induction n with
  | zero => rfl
  | succ n ih =>
    rw [forLoop_succ, forLoop_succ, ih]
    cases forLoop n body1 s with
    | none => rfl
    | some x => exact h n x

/-- The state transformer `mat_mult_state` is `mat_mult` on the contents of
`C`, with `A` and `B` carried along. -/
theorem mat_mult_state_eq {α : Type} [Zero α] [Add α] [Mul α] (A B C : List α)
    (I J K : Nat) :
    mat_mult_state ⟨A, B, C⟩ I J K =
      (mat_mult A B C I J K).map (fun Cn => ⟨A, B, Cn⟩) := by
  unfold mat_mult_state mat_mult
  refine forLoop_map (fun Cn => (⟨A, B, Cn⟩ : MatBuffers α)) _ _ (fun i X => ?_) I C
  refine forLoop_map (fun Cn => (⟨A, B, Cn⟩ : MatBuffers α)) _ _ (fun k Y => ?_) K X
  cases forLoop J (fun j t => do
      let a ← A[i * J + j]?
      let b ← B[j * K + k]?
      pure (t + a * b)) (0 : α) with
  | none => rfl
  | some t =>
    cases hst : store Y (i * K + k) t with
    | none => simp [hst]
    | some Z => simp [hst]

/-- A call of `mat_mult` that returns has kept the length of `C` and the
cells of `C` from index `I*K` on. -/
theorem mat_mult_frame {α : Type} [Zero α] [Add α] [Mul α] (A B C Cn : List α)
    (I J K : Nat) (h : mat_mult A B C I J K = some Cn) :
    Cn.length = C.length ∧ ∀ p, I * K ≤ p → Cn[p]? = C[p]? := by
  refine forLoop_invariant
    (fun X => X.length = C.length ∧ ∀ p, I * K ≤ p → X[p]? = C[p]?) _ I C Cn
    ⟨rfl, fun _ _ => rfl⟩ ?_ h
  intro i hi X Y hX hrow
  refine forLoop_invariant
    (fun X => X.length = C.length ∧ ∀ p, I * K ≤ p → X[p]? = C[p]?) _ K X Y hX ?_ hrow
  intro k hk Z W hZ hbody
  simp only [Option.bind_eq_bind, Option.bind_eq_some] at hbody
  obtain ⟨t, -, hst⟩ := hbody
  obtain ⟨-, rfl⟩ := store_eq_some _ _ _ _ hst
  have hidx := index_lt i k I K hi hk
  refine ⟨by rw [List.length_set]; exact hZ.1, fun p hp => ?_⟩
  rw [List.getElem?_set_ne (by omega)]
  exact hZ.2 p hp

/-! ## C16 -/

/-- C16: `mat_mult` has no special case for zero dimensions and writes only
the `I*K` product cells. If `I = 0` or `K = 0` the call returns `C` unchanged
(whatever the buffers); if `J = 0` every cell `C[i*K+k]` with `i < I` and
`k < K` is set to `0`; and in every call that returns, `C` keeps its length
and its cells at index `≥ I*K`, and the buffers `A` and `B` are unchanged. -/
theorem mat_mult_zero_dims_and_frame {α : Type} [Zero α] [Add α] [Mul α]
    (A B C Cn : List α) (I J K : Nat) (s r : MatBuffers α) :
    mat_mult A B C 0 J K = some C ∧
    mat_mult A B C I J 0 = some C ∧
    (I * K ≤ C.length →
      ∃ Cz, mat_mult A B C I 0 K = some Cz ∧
        ∀ i k, i < I → k < K → Cz[i * K + k]? = some 0) ∧
    (mat_mult A B C I J K = some Cn →
      Cn.length = C.length ∧ ∀ p, I * K ≤ p → Cn[p]? = C[p]?) ∧
    (mat_mult_state s I J K = some r →
      r.A = s.A ∧ r.B = s.B ∧ mat_mult s.A s.B s.C I J K = some r.C) := by
  refine ⟨rfl, ?_, ?_, mat_mult_frame A B C Cn I J K, ?_⟩
  · have hrows := forLoop_eq_foldl (fun _ : List α => True) (fun _ X => X)
      (fun i X => forLoop 0 (fun k Y => do
        let t ← forLoop J (fun j t => do
          let a ← A[i * J + j]?
          let b ← B[j * 0 + k]?
          pure (t + a * b)) (0 : α)
        store Y (i * 0 + k) t) X) I C trivial (fun _ _ _ _ => ⟨rfl, trivial⟩)
    have hid : ∀ n, (List.range n).foldl (fun (X : List α) (_ : Nat) => X) C = C := by
      intro n
      induction n with
      | zero => rfl
      | succ n ih => rw [List.range_succ, List.foldl_append, ih]; rfl
    rw [hid] at hrows
    exact hrows.1
  · intro hC
    refine ⟨_, mat_mult_eq_fill A B C I 0 K (by simp) (by simp) hC, ?_⟩
    intro i k hi hk
    have hidx := index_lt i k I K hi hk
    rw [fillRows_get_in _ K I C i k hi hk (by omega)]
    rfl
  · intro h
    obtain ⟨A0, B0, C0⟩ := s
    rw [mat_mult_state_eq] at h
    cases hm : mat_mult A0 B0 C0 I J K with
    | none => rw [hm] at h; cases h
    | some X =>
      rw [hm] at h
      cases h
      exact ⟨rfl, rfl, rfl⟩

/-- C16 at the 2-by-2 example over the integers, with a buffer `C` of five
cells holding `9`: the fifth cell keeps its value, `A` and `B` are as before,
and with `J = 0` the four product cells are set to `0`. -/
theorem mat_mult_zero_dims_and_frame_witness :
    mat_mult [1, 2, 3, 4] [5, 6, 7, 8] ([9, 9, 9, 9, 9] : List ℤ) 0 2 2 =
      some [9, 9, 9, 9, 9] ∧
    mat_mult [1, 2, 3, 4] [5, 6, 7, 8] ([9, 9, 9, 9, 9] : List ℤ) 2 2 0 =
      some [9, 9, 9, 9, 9] ∧
    (∃ Cz, mat_mult [1, 2, 3, 4] [5, 6, 7, 8] ([9, 9, 9, 9, 9] : List ℤ) 2 0 2 = some Cz ∧
      ∀ i k, i < 2 → k < 2 → Cz[i * 2 + k]? = some 0) ∧
    (([19, 22, 43, 50, 9] : List ℤ).length = ([9, 9, 9, 9, 9] : List ℤ).length ∧
      ∀ p, 2 * 2 ≤ p → ([19, 22, 43, 50, 9] : List ℤ)[p]? = ([9, 9, 9, 9, 9] : List ℤ)[p]?) ∧
    ((⟨[1, 2, 3, 4], [5, 6, 7, 8], [19, 22, 43, 50, 9]⟩ : MatBuffers ℤ).A = [1, 2, 3, 4] ∧
      (⟨[1, 2, 3, 4], [5, 6, 7, 8], [19, 22, 43, 50, 9]⟩ : MatBuffers ℤ).B = [5, 6, 7, 8] ∧
      mat_mult [1, 2, 3, 4] [5, 6, 7, 8] ([9, 9, 9, 9, 9] : List ℤ) 2 2 2 =
        some [19, 22, 43, 50, 9]) :=
  have h := mat_mult_zero_dims_and_frame ([1, 2, 3, 4] : List ℤ) [5, 6, 7, 8]
    [9, 9, 9, 9, 9] [19, 22, 43, 50, 9] 2 2 2 ⟨[1, 2, 3, 4], [5, 6, 7, 8], [9, 9, 9, 9, 9]⟩
    ⟨[1, 2, 3, 4], [5, 6, 7, 8], [19, 22, 43, 50, 9]⟩
  ⟨h.1, h.2.1, h.2.2.1 (by decide), h.2.2.2.1 (by decide), h.2.2.2.2 rfl⟩

/-! ## newton over double arithmetic -/

theorem newtonOn_exit {D : Type} (ops : NewtonOps D) (fuel : Nat) (f fprime : D → D)
    (guess tolerance : D) (h : ops.gt (ops.fabs (f guess)) tolerance = false) :
    newtonOn ops fuel f fprime guess tolerance = some guess := by
  unfold newtonOn
  rw [if_neg (by rw [h]; exact Bool.false_ne_true)]

theorem newtonOn_step {D : Type} (ops : NewtonOps D) (fuel : Nat) (f fprime : D → D)
    (guess tolerance : D) (h : ops.gt (ops.fabs (f guess)) tolerance = true) :
    newtonOn ops (fuel + 1) f fprime guess tolerance =
      newtonOn ops fuel f fprime (ops.sub guess (ops.div (f guess) (fprime guess)))
        tolerance := by
  rw [newtonOn, if_pos h]

theorem newtonOn_stuck {D : Type} (ops : NewtonOps D) (f fprime : D → D)
    (guess tolerance : D) (h : ops.gt (ops.fabs (f guess)) tolerance = true) :
    newtonOn ops 0 f fprime guess tolerance = none := by
  rw [newtonOn, if_pos h]

/-- The loop of `newton.c` in exact arithmetic is `newton`. -/
theorem newton_eq_newtonOn {α : Type} [LinearOrderedField α] (fuel : Nat)
    (f fprime : α → α) (guess tolerance : α) :
    newton fuel f fprime guess tolerance = newtonOn exactOps fuel f fprime guess tolerance := by
  induction fuel generalizing guess with
  | zero =>
    by_cases hg : tolerance < |f guess|
    · rw [newton_stuck f fprime guess tolerance hg,
        newtonOn_stuck exactOps f fprime guess tolerance (by simpa [exactOps] using hg)]
    · rw [newton_exit 0 f fprime guess tolerance (not_lt.mp hg),
        newtonOn_exit exactOps 0 f fprime guess tolerance (by simpa [exactOps] using hg)]
  | succ n ih =>
    by_cases hg : tolerance < |f guess|
    · rw [newton_step n f fprime guess tolerance hg,
        newtonOn_step exactOps n f fprime guess tolerance (by simpa [exactOps] using hg), ih]
      rfl
    · rw [newton_exit _ f fprime guess tolerance (not_lt.mp hg),
        newtonOn_exit exactOps _ f fprime guess tolerance (by simpa [exactOps] using hg)]

theorem iterateOn_shift {D : Type} (ops : NewtonOps D) (f fprime : D → D) (guess : D)
    (n : Nat) :
    iterateOn ops f fprime guess (n + 1) =
      iterateOn ops f fprime (ops.sub guess (ops.div (f guess) (fprime guess))) n := by
  induction n with
  | zero => rfl
  | succ n ih =>
    have unfold_succ : ∀ (g : D) (k : Nat), iterateOn ops f fprime g (k + 1) =
        ops.sub (iterateOn ops f fprime g k)
          (ops.div (f (iterateOn ops f fprime g k)) (fprime (iterateOn ops f fprime g k))) :=
      fun _ _ => rfl
    rw [unfold_succ guess (n + 1), ih, unfold_succ _ n]

/-- If `x_n` is the first iterate at which the loop test fails, `newtonOn`
returns it as soon as `n` updates are allowed. -/
theorem newtonOn_returns_first {D : Type} (ops : NewtonOps D) (f fprime : D → D)
    (tolerance : D) (n : Nat) :
    ∀ (guess : D) (fuel : Nat), n ≤ fuel →
      (∀ k, k < n → ops.gt (ops.fabs (f (iterateOn ops f fprime guess k))) tolerance = true) →
      ops.gt (ops.fabs (f (iterateOn ops f fprime guess n))) tolerance = false →
      newtonOn ops fuel f fprime guess tolerance = some (iterateOn ops f fprime guess n) := by
  induction n with
  | zero =>
    intro guess fuel _ _ hn
    exact newtonOn_exit ops fuel f fprime guess tolerance hn
  | succ n ih =>
    intro guess fuel hfuel hlt hn
    obtain ⟨fuel, rfl⟩ : ∃ m, fuel = m + 1 := ⟨fuel - 1, by omega⟩
    rw [newtonOn_step ops fuel f fprime guess tolerance (hlt 0 (Nat.succ_pos n)),
      iterateOn_shift]
    refine ih _ fuel (by omega) (fun k hk => ?_) (by rw [← iterateOn_shift]; exact hn)
    rw [← iterateOn_shift]
    exact hlt (k + 1) (by omega)

/-- While the loop test holds at every iterate up to `x_fuel`, `fuel` updates
do not let `newtonOn` return. -/
theorem newtonOn_none {D : Type} (ops : NewtonOps D) (f fprime : D → D)
    (tolerance : D) (fuel : Nat) :
    ∀ guess : D,
      (∀ k, k ≤ fuel → ops.gt (ops.fabs (f (iterateOn ops f fprime guess k))) tolerance = true) →
      newtonOn ops fuel f fprime guess tolerance = none := by
  induction fuel with
  | zero =>
    intro guess h
    exact newtonOn_stuck ops f fprime guess tolerance (h 0 (Nat.le_refl 0))
  | succ fuel ih =>
    intro guess h
    rw [newtonOn_step ops fuel f fprime guess tolerance (h 0 (Nat.zero_le _))]
    refine ih _ (fun k hk => ?_)
    rw [← iterateOn_shift]
    exact h (k + 1) (by omega)

/-- A value returned by `newtonOn` is the first iterate at which the loop
test fails. -/
theorem newtonOn_some_inv {D : Type} (ops : NewtonOps D) (f fprime : D → D)
    (tolerance : D) (fuel : Nat) :
    ∀ guess r : D, newtonOn ops fuel f fprime guess tolerance = some r →
      ∃ n, n ≤ fuel ∧ r = iterateOn ops f fprime guess n ∧
        ops.gt (ops.fabs (f (iterateOn ops f fprime guess n))) tolerance = false ∧
        ∀ k, k < n → ops.gt (ops.fabs (f (iterateOn ops f fprime guess k))) tolerance = true := by
  induction fuel with
  | zero =>
    intro guess r h
    cases hg : ops.gt (ops.fabs (f guess)) tolerance with
    | true => rw [newtonOn_stuck ops f fprime guess tolerance hg] at h; cases h
    | false =>
      rw [newtonOn_exit ops 0 f fprime guess tolerance hg] at h
      cases h
      exact ⟨0, Nat.le_refl 0, rfl, hg, fun k hk => absurd hk (Nat.not_lt_zero k)⟩
  | succ fuel ih =>
    intro guess r h
    cases hg : ops.gt (ops.fabs (f guess)) tolerance with
    | true =>
      rw [newtonOn_step ops fuel f fprime guess tolerance hg] at h
      obtain ⟨n, hn, hr, hex, hlt⟩ := ih _ r h
      refine ⟨n + 1, by omega, by rw [iterateOn_shift]; exact hr,
        by rw [iterateOn_shift]; exact hex, fun k hk => ?_⟩
      cases k with
      | zero => exact hg
      | succ k => rw [iterateOn_shift]; exact hlt k (by omega)
    | false =>
      rw [newtonOn_exit ops _ f fprime guess tolerance hg] at h
      cases h
      exact ⟨0, Nat.zero_le _, rfl, hg, fun k hk => absurd hk (Nat.not_lt_zero k)⟩

/-- The test `a > b` fails exactly when `a <= b` or one side is NaN. -/
theorem Dbl.gt_eq_false_iff (a b : Dbl) :
    Dbl.gt a b = false ↔ Dbl.le a b = true ∨ a = .nan ∨ b = .nan := by
  cases a <;> cases b <;> simp [Dbl.gt, Dbl.le]

theorem Dbl.fabs_eq_nan_iff (v : Dbl) : Dbl.fabs v = .nan ↔ v = .nan := by
  cases v <;> simp [Dbl.fabs]

/-- An absolute value that is not NaN exceeds every negative tolerance. -/
theorem Dbl.fabs_gt_of_neg (v tol : Dbl) (hv : v ≠ .nan)
    (htol : Dbl.gt (.fin 0) tol = true) : Dbl.gt (Dbl.fabs v) tol = true := by
  cases v <;> cases tol <;> simp_all [Dbl.gt, Dbl.fabs]
  exact lt_of_lt_of_le htol (abs_nonneg _)

/-- An absolute value does not exceed `0` only for `0` and NaN. -/
theorem Dbl.fabs_not_gt_zero (v : Dbl) (h : Dbl.gt (Dbl.fabs v) (.fin 0) = false) :
    v = .fin 0 ∨ v = .nan := by
  cases v <;> simp_all [Dbl.gt, Dbl.fabs]

/-! ## Two runs of newton over double arithmetic -/

/-- The run of `newton` on `x * x + 1`, `2 * x` from the guess `0.0` with a
finite tolerance below `1`: `f(0) = 1`, `fprime(0) = 0`, the first update
gives `0 - 1/0 = -inf`; `f(-inf) = inf`, `fprime(-inf) = -inf`, the second
update gives `-inf - inf/(-inf) = NaN`; `fabs(NaN) > tolerance` is false, and
NaN is returned. -/
theorem nan_run (q : ℚ) (hq : q < 1) :
    newtonOn ieeeOps 2 squarePlusOne twice (.fin 0) (.fin q) = some .nan := by
  have t0 : ieeeOps.gt (ieeeOps.fabs (squarePlusOne (.fin 0))) (.fin q) = true := by
    norm_num [ieeeOps, squarePlusOne, Dbl.mul, Dbl.add, Dbl.fabs, Dbl.gt, hq]
  have u0 : ieeeOps.sub (.fin 0) (ieeeOps.div (squarePlusOne (.fin 0)) (twice (.fin 0))) =
      .ninf := by
    norm_num [ieeeOps, squarePlusOne, twice, Dbl.mul, Dbl.add, Dbl.div, Dbl.signedInf, Dbl.sub,
      Dbl.neg]
  have t1 : ieeeOps.gt (ieeeOps.fabs (squarePlusOne .ninf)) (.fin q) = true := by
    norm_num [ieeeOps, squarePlusOne, Dbl.mul, Dbl.add, Dbl.fabs, Dbl.gt]
  have u1 : ieeeOps.sub .ninf (ieeeOps.div (squarePlusOne .ninf) (twice .ninf)) = .nan := by
    norm_num [ieeeOps, squarePlusOne, twice, Dbl.mul, Dbl.add, Dbl.div, Dbl.signedInf, Dbl.sub,
      Dbl.neg]
  have t2 : ieeeOps.gt (ieeeOps.fabs (squarePlusOne .nan)) (.fin q) = false := by
    norm_num [ieeeOps, squarePlusOne, Dbl.mul, Dbl.add, Dbl.fabs, Dbl.gt]
  rw [newtonOn_step ieeeOps 1 squarePlusOne twice (.fin 0) (.fin q) t0, u0,
    newtonOn_step ieeeOps 0 squarePlusOne twice .ninf (.fin q) t1, u1,
    newtonOn_exit ieeeOps 0 squarePlusOne twice .nan (.fin q) t2]

/-- The iterates of that run: `0`, `-inf`, and NaN from then on. -/
theorem nan_iterates :
    iterateOn ieeeOps squarePlusOne twice (.fin 0) 0 = .fin 0 ∧
    iterateOn ieeeOps squarePlusOne twice (.fin 0) 1 = .ninf ∧
    ∀ n, iterateOn ieeeOps squarePlusOne twice (.fin 0) (n + 2) = .nan := by
  have h1 : iterateOn ieeeOps squarePlusOne twice (.fin 0) 1 = .ninf := by
    norm_num [iterateOn, ieeeOps, squarePlusOne, twice, Dbl.mul, Dbl.add, Dbl.div, Dbl.signedInf,
      Dbl.sub, Dbl.neg]
  refine ⟨rfl, h1, fun n => ?_⟩
  induction n with
  | zero =>
    have unfold_two : iterateOn ieeeOps squarePlusOne twice (.fin 0) 2 =
        ieeeOps.sub (iterateOn ieeeOps squarePlusOne twice (.fin 0) 1)
          (ieeeOps.div (squarePlusOne (iterateOn ieeeOps squarePlusOne twice (.fin 0) 1))
            (twice (iterateOn ieeeOps squarePlusOne twice (.fin 0) 1))) := rfl
    rw [unfold_two, h1]
    norm_num [ieeeOps, squarePlusOne, twice, Dbl.mul, Dbl.add, Dbl.div, Dbl.signedInf, Dbl.sub,
      Dbl.neg]
  | succ n ih =>
    have unfold_succ : iterateOn ieeeOps squarePlusOne twice (.fin 0) (n + 1 + 2) =
        ieeeOps.sub (iterateOn ieeeOps squarePlusOne twice (.fin 0) (n + 2))
          (ieeeOps.div (squarePlusOne (iterateOn ieeeOps squarePlusOne twice (.fin 0) (n + 2)))
            (twice (iterateOn ieeeOps squarePlusOne twice (.fin 0) (n + 2)))) := rfl
    rw [unfold_succ, ih]
    norm_num [ieeeOps, squarePlusOne, twice, Dbl.mul, Dbl.add, Dbl.div, Dbl.sub, Dbl.neg]

/-- The run of `newton` on `3 * x - 6`, `3` from the guess `0.0` with
tolerance `0.5`: one update, to `2`, where `f` is `0`. -/
theorem finite_run :
    newtonOn ieeeOps 1 threeXMinusSix constThree (.fin 0) (.fin (1 / 2)) = some (.fin 2) ∧
    threeXMinusSix (.fin 2) = .fin 0 := by
  have t0 : ieeeOps.gt (ieeeOps.fabs (threeXMinusSix (.fin 0))) (.fin (1 / 2)) = true := by
    norm_num [ieeeOps, threeXMinusSix, Dbl.mul, Dbl.add, Dbl.sub, Dbl.neg, Dbl.fabs, Dbl.gt]
  have u0 : ieeeOps.sub (.fin 0) (ieeeOps.div (threeXMinusSix (.fin 0)) (constThree (.fin 0))) =
      .fin 2 := by
    norm_num [ieeeOps, threeXMinusSix, constThree, Dbl.mul, Dbl.add, Dbl.div, Dbl.sub, Dbl.neg]
  have v : threeXMinusSix (.fin 2) = .fin 0 := by
    norm_num [threeXMinusSix, Dbl.mul, Dbl.add, Dbl.sub, Dbl.neg]
  have t1 : ieeeOps.gt (ieeeOps.fabs (threeXMinusSix (.fin 2))) (.fin (1 / 2)) = false := by
    rw [v]
    norm_num [ieeeOps, Dbl.fabs, Dbl.gt]
  refine ⟨?_, v⟩
  rw [newtonOn_step ieeeOps 0 threeXMinusSix constThree (.fin 0) (.fin (1 / 2)) t0, u0,
    newtonOn_exit ieeeOps 0 threeXMinusSix constThree (.fin 2) (.fin (1 / 2)) t1]

/-! ## C2 -/

/-- C2, counterexample: on `f x = x * x + 1`, `fprime x = 2 * x`, guess `0.0`
and tolerance `0.5` the call returns NaN after two updates, and
`|f(NaN)| <= 0.5` does not hold. -/
theorem newton_returns_nan_counterexample :
    newtonOn ieeeOps 2 squarePlusOne twice (.fin 0) (.fin (1 / 2)) = some .nan ∧
    Dbl.le (Dbl.fabs (squarePlusOne .nan)) (.fin (1 / 2)) = false :=
  ⟨nan_run (1 / 2) (by norm_num), by simp [squarePlusOne, Dbl.mul, Dbl.add, Dbl.fabs, Dbl.le]⟩

/-- C2, on `double` values: whenever `newton f fprime guess tolerance` returns a value
`r`, the loop test `fabs(f(r)) > tolerance` is false; so `|f r| <= tolerance`
whenever neither `f r` nor `tolerance` is NaN, for every `f`, `fprime`,
initial guess and tolerance. -/
theorem newton_result_within_tolerance_unless_nan (fuel : Nat) (f fprime : Dbl → Dbl)
    (guess tolerance r : Dbl) (h : newtonOn ieeeOps fuel f fprime guess tolerance = some r) :
    Dbl.gt (Dbl.fabs (f r)) tolerance = false ∧
    (f r ≠ .nan → tolerance ≠ .nan → Dbl.le (Dbl.fabs (f r)) tolerance = true) := by
  obtain ⟨n, -, hr, hex, -⟩ := newtonOn_some_inv ieeeOps f fprime tolerance fuel guess r h
  rw [← hr] at hex
  have hex2 : Dbl.gt (Dbl.fabs (f r)) tolerance = false := hex
  refine ⟨hex2, fun hf ht => ?_⟩
  rcases (Dbl.gt_eq_false_iff _ _).mp hex2 with hle | hnan | hnan
  · exact hle
  · exact absurd ((Dbl.fabs_eq_nan_iff _).mp hnan) hf
  · exact absurd hnan ht

/-- C2 on `double` values, at `f x = 3 * x - 6`, `fprime x = 3`, guess `0.0`,
tolerance `0.5`: the call returns `2` and `|f 2| <= 0.5`. -/
theorem newton_result_within_tolerance_unless_nan_witness :
    newtonOn ieeeOps 1 threeXMinusSix constThree (.fin 0) (.fin (1 / 2)) = some (.fin 2) ∧
    Dbl.gt (Dbl.fabs (threeXMinusSix (.fin 2))) (.fin (1 / 2)) = false ∧
    Dbl.le (Dbl.fabs (threeXMinusSix (.fin 2))) (.fin (1 / 2)) = true :=
  have hw := newton_result_within_tolerance_unless_nan 1 threeXMinusSix constThree (.fin 0)
    (.fin (1 / 2)) (.fin 2) finite_run.1
  ⟨finite_run.1, hw.1, hw.2 (by rw [finite_run.2]; exact fun h => Dbl.noConfusion h)
    (fun h => Dbl.noConfusion h)⟩

/-! ## C12 -/

/-- C12, counterexample: on `f x = x * x + 1`, `fprime x = 2 * x` and guess
`0.0` the loop exits after two updates with tolerance `-1` as with tolerance
`0`, at the guess NaN, where `f` is NaN and not `0`. -/
theorem newton_nonpositive_tolerance_counterexample :
    newtonOn ieeeOps 2 squarePlusOne twice (.fin 0) (.fin (-1)) = some .nan ∧
    newtonOn ieeeOps 2 squarePlusOne twice (.fin 0) (.fin 0) = some .nan ∧
    squarePlusOne .nan ≠ .fin 0 :=
  ⟨nan_run (-1) (by norm_num), nan_run 0 (by norm_num),
    by simp [squarePlusOne, Dbl.mul, Dbl.add]⟩

/-- C12, on `double` values: with `tolerance <= 0` the loop of `newton` exits only
where its test fails. If `tolerance < 0`, no iterate has
`|f(x_n)| <= tolerance`, the loop exits only at a guess where `f` is NaN, and
it never exits when `f` yields no NaN. If `tolerance = 0`, it exits only at a
guess where `f` is `0` or NaN. -/
theorem newton_nonpositive_tolerance_unless_nan (f fprime : Dbl → Dbl)
    (guess tolerance : Dbl) :
    (Dbl.gt (.fin 0) tolerance = true →
      (∀ n, Dbl.le (Dbl.fabs (f (iterateOn ieeeOps f fprime guess n))) tolerance = false) ∧
      (∀ fuel r, newtonOn ieeeOps fuel f fprime guess tolerance = some r → f r = .nan) ∧
      ((∀ x, f x ≠ .nan) → ∀ fuel, newtonOn ieeeOps fuel f fprime guess tolerance = none)) ∧
    (tolerance = .fin 0 →
      ∀ fuel r, newtonOn ieeeOps fuel f fprime guess tolerance = some r →
        f r = .fin 0 ∨ f r = .nan) := by
  constructor
  · intro hneg
    refine ⟨fun n => ?_, fun fuel r h => ?_, fun hf fuel => ?_⟩
    · cases hv : f (iterateOn ieeeOps f fprime guess n) <;> cases tolerance <;>
        simp_all [Dbl.gt, Dbl.le, Dbl.fabs]
      exact lt_of_lt_of_le hneg (abs_nonneg _)
    · obtain ⟨n, -, hr, hex, -⟩ := newtonOn_some_inv ieeeOps f fprime tolerance fuel guess r h
      rw [← hr] at hex
      by_contra hne
      have := Dbl.fabs_gt_of_neg (f r) tolerance hne hneg
      have hex2 : Dbl.gt (Dbl.fabs (f r)) tolerance = false := hex
      rw [this] at hex2
      cases hex2
    · exact newtonOn_none ieeeOps f fprime tolerance fuel guess
        (fun k _ => Dbl.fabs_gt_of_neg _ tolerance (hf _) hneg)
  · intro hzero fuel r h
    obtain ⟨n, -, hr, hex, -⟩ := newtonOn_some_inv ieeeOps f fprime tolerance fuel guess r h
    rw [← hr, hzero] at hex
    exact Dbl.fabs_not_gt_zero (f r) hex

/-- C12 on `double` values, on `f x = x * x + 1`, `fprime x = 2 * x`, guess `0.0`: with
tolerance `-1` the loop exits at NaN, where `f` is NaN; with tolerance `0` it
exits at a guess where `f` is `0` or NaN. -/
theorem newton_nonpositive_tolerance_unless_nan_witness :
    newtonOn ieeeOps 2 squarePlusOne twice (.fin 0) (.fin (-1)) = some .nan ∧
    squarePlusOne .nan = .nan ∧
    (squarePlusOne .nan = .fin 0 ∨ squarePlusOne .nan = .nan) :=
  ⟨nan_run (-1) (by norm_num),
    ((newton_nonpositive_tolerance_unless_nan squarePlusOne twice (.fin 0) (.fin (-1))).1
      (by norm_num [Dbl.gt])).2.1 2 .nan (nan_run (-1) (by norm_num)),
    (newton_nonpositive_tolerance_unless_nan squarePlusOne twice (.fin 0) (.fin 0)).2 rfl
      2 .nan (nan_run 0 (by norm_num))⟩

/-! ## C15 -/

/-- C15, counterexample: on `f x = x * x + 1`, `fprime x = 2 * x`, guess `0.0`
and tolerance `0.5` the call terminates (two updates return NaN), although no
Newton iterate `x_n` has `|f(x_n)| <= 0.5`: the iterates are `0`, `-inf` and
NaN from then on. -/
theorem newton_terminates_without_meeting_tolerance_counterexample :
    (∃ fuel r, newtonOn ieeeOps fuel squarePlusOne twice (.fin 0) (.fin (1 / 2)) = some r) ∧
    ∀ n, Dbl.le (Dbl.fabs (squarePlusOne (iterateOn ieeeOps squarePlusOne twice (.fin 0) n)))
      (.fin (1 / 2)) = false := by
  refine ⟨⟨2, .nan, nan_run (1 / 2) (by norm_num)⟩, fun n => ?_⟩
  obtain ⟨h0, h1, h2⟩ := nan_iterates
  match n with
  | 0 => rw [h0]; norm_num [squarePlusOne, Dbl.mul, Dbl.add, Dbl.fabs, Dbl.le]
  | 1 => rw [h1]; simp [squarePlusOne, Dbl.mul, Dbl.add, Dbl.fabs, Dbl.le]
  | n + 2 => rw [h2 n]; simp [squarePlusOne, Dbl.mul, Dbl.add, Dbl.fabs, Dbl.le]

/-- C15, on `double` values: `newton` returns the first Newton iterate at which its
loop test fails. With `x_0 = guess` and `x_(k+1) = x_k - f(x_k)/fprime(x_k)`
in `double` arithmetic, the call terminates if and only if some `n` has
`fabs(f(x_n)) > tolerance` false, that is `|f(x_n)| <= tolerance` or `f(x_n)`
or `tolerance` NaN; a returned value is `x_n` for the least such `n`, reached
after exactly `n` updates; and when the test is false at `guess` the call
returns `guess` itself without any update. -/
theorem newton_first_iterate_failing_test (f fprime : Dbl → Dbl) (guess tolerance : Dbl) :
    ((∃ fuel r, newtonOn ieeeOps fuel f fprime guess tolerance = some r) ↔
      ∃ n, Dbl.le (Dbl.fabs (f (iterateOn ieeeOps f fprime guess n))) tolerance = true ∨
        f (iterateOn ieeeOps f fprime guess n) = .nan ∨ tolerance = .nan) ∧
    (∀ fuel r, newtonOn ieeeOps fuel f fprime guess tolerance = some r →
      ∃ n, n ≤ fuel ∧ r = iterateOn ieeeOps f fprime guess n ∧
        (Dbl.le (Dbl.fabs (f (iterateOn ieeeOps f fprime guess n))) tolerance = true ∨
          f (iterateOn ieeeOps f fprime guess n) = .nan ∨ tolerance = .nan) ∧
        (∀ k, k < n →
          Dbl.gt (Dbl.fabs (f (iterateOn ieeeOps f fprime guess k))) tolerance = true) ∧
        (∀ less, less < n → newtonOn ieeeOps less f fprime guess tolerance = none) ∧
        (∀ more, n ≤ more → newtonOn ieeeOps more f fprime guess tolerance = some r)) ∧
    ((Dbl.le (Dbl.fabs (f guess)) tolerance = true ∨ f guess = .nan ∨ tolerance = .nan) →
      newtonOn ieeeOps 0 f fprime guess tolerance = some guess) := by
  have test : ∀ v : Dbl, Dbl.gt (Dbl.fabs v) tolerance = false ↔
      (Dbl.le (Dbl.fabs v) tolerance = true ∨ v = .nan ∨ tolerance = .nan) := by
    intro v
    rw [Dbl.gt_eq_false_iff, Dbl.fabs_eq_nan_iff]
  have inv : ∀ fuel r, newtonOn ieeeOps fuel f fprime guess tolerance = some r →
      ∃ n, n ≤ fuel ∧ r = iterateOn ieeeOps f fprime guess n ∧
        (Dbl.le (Dbl.fabs (f (iterateOn ieeeOps f fprime guess n))) tolerance = true ∨
          f (iterateOn ieeeOps f fprime guess n) = .nan ∨ tolerance = .nan) ∧
        (∀ k, k < n →
          Dbl.gt (Dbl.fabs (f (iterateOn ieeeOps f fprime guess k))) tolerance = true) ∧
        (∀ less, less < n → newtonOn ieeeOps less f fprime guess tolerance = none) ∧
        (∀ more, n ≤ more → newtonOn ieeeOps more f fprime guess tolerance = some r) := by
    intro fuel r h
    obtain ⟨n, hn, hr, hex, hlt⟩ := newtonOn_some_inv ieeeOps f fprime tolerance fuel guess r h
    refine ⟨n, hn, hr, (test _).mp hex, hlt, fun less hless => ?_, fun more hmore => ?_⟩
    · exact newtonOn_none ieeeOps f fprime tolerance less guess (fun k hk => hlt k (by omega))
    · rw [hr]
      exact newtonOn_returns_first ieeeOps f fprime tolerance n guess more hmore hlt hex
  refine ⟨⟨?_, ?_⟩, inv, fun h =>
    newtonOn_exit ieeeOps 0 f fprime guess tolerance ((test _).mpr h)⟩
  · rintro ⟨fuel, r, h⟩
    obtain ⟨n, -, -, hex, -⟩ := inv fuel r h
    exact ⟨n, hex⟩
  · rintro ⟨n, hn⟩
    classical
    have hex : ∃ n, Dbl.gt (Dbl.fabs (f (iterateOn ieeeOps f fprime guess n))) tolerance =
        false := ⟨n, (test _).mpr hn⟩
    refine ⟨Nat.find hex, _, newtonOn_returns_first ieeeOps f fprime tolerance (Nat.find hex)
      guess _ (Nat.le_refl _) (fun k hk => ?_) (Nat.find_spec hex)⟩
    have := Nat.find_min hex hk
    simpa using this

/-- C15 on `double` values, on `f x = x * x + 1`, `fprime x = 2 * x`, guess `0.0`,
tolerance `0.5`: the returned NaN is an iterate `x_n` with `n <= 2` at which
the test fails, the first such, reached after exactly `n` updates. -/
theorem newton_first_iterate_failing_test_witness :
    newtonOn ieeeOps 2 squarePlusOne twice (.fin 0) (.fin (1 / 2)) = some .nan ∧
    ∃ n, n ≤ 2 ∧ Dbl.nan = iterateOn ieeeOps squarePlusOne twice (.fin 0) n ∧
      (Dbl.le (Dbl.fabs (squarePlusOne (iterateOn ieeeOps squarePlusOne twice (.fin 0) n)))
          (.fin (1 / 2)) = true ∨
        squarePlusOne (iterateOn ieeeOps squarePlusOne twice (.fin 0) n) = .nan ∨
        Dbl.fin (1 / 2) = .nan) ∧
      (∀ k, k < n →
        Dbl.gt (Dbl.fabs (squarePlusOne (iterateOn ieeeOps squarePlusOne twice (.fin 0) k)))
          (.fin (1 / 2)) = true) ∧
      (∀ less, less < n →
        newtonOn ieeeOps less squarePlusOne twice (.fin 0) (.fin (1 / 2)) = none) ∧
      (∀ more, n ≤ more →
        newtonOn ieeeOps more squarePlusOne twice (.fin 0) (.fin (1 / 2)) = some .nan) :=
  ⟨nan_run (1 / 2) (by norm_num),
    (newton_first_iterate_failing_test squarePlusOne twice (.fin 0) (.fin (1 / 2))).2.1 2 .nan
      (nan_run (1 / 2) (by norm_num))⟩

end MapleExt
